import Mathlib

/-!
Verification development for the Assistant repository's command/configuration
core (src/core/config_manager.py, src/core/utils.py, src/core/command_manager.py).

The Python code is shallowly embedded:

* Python strings are Lean `String`s; `str.strip` / `str.lower` are embedded for
  the ASCII range (`pyStrip`, `pyLower`), which covers every phrase and text the
  claims mention.
* A command record (`commands.json` value, a Python dict) is embedded as
  `CommandRecord`: each of the three keys `Phrases`, `Action`, `Command` is
  either absent (`none`) or holds a string or a list of strings (`PyVal`), the
  only value shapes the code and its data files use.
* The in-memory command map `ConfigManager._commands` (a Python dict, insertion
  ordered with unique keys) is embedded as an association list
  `List (String × CommandRecord)` together with dict operations (`dictSet`,
  `dictGet`, `dictDel`) that mirror Python dict semantics.
* Disk writes (`JsonUtils.save_json`) are out of scope and abstracted as
  succeeding; everything else in `save_commands`, including its re-validation
  of the whole command map, is embedded.
* The mutating operations are embedded with their default persistence
  behaviour (`save=None` with `auto_save=True`, the configuration every caller
  in src uses): they call `save_commands` and return its result.
-/

/-- Python `c.isspace()` for the characters `str.strip` removes (ASCII range). -/
def pyIsSpace (c : Char) : Bool :=
  c == ' ' || c == '\t' || c == '\n' || c == '\r' || c == '\x0b' || c == '\x0c'

/-- Strip leading and trailing whitespace from a character list. -/
def stripChars (l : List Char) : List Char :=
  ((l.dropWhile pyIsSpace).reverse.dropWhile pyIsSpace).reverse

/-- Embedding of Python `str.strip()` (ASCII whitespace). -/
def pyStrip (s : String) : String :=
  ⟨stripChars s.data⟩

/-- Embedding of Python `str.lower()` (ASCII case folding, per character). -/
def pyLower (s : String) : String :=
  ⟨s.data.map Char.toLower⟩

/-- Phrase normalization used throughout `config_manager.py`: `p.strip().lower()`. -/
def phraseNorm (s : String) : String :=
  pyLower (pyStrip s)

/-- A Python value stored under one of the keys of a command record: the code
and its data files only ever put strings and lists of strings there. -/
inductive PyVal where
  | pyStr (s : String)
  | pyList (l : List String)
deriving DecidableEq

/-- A command record: the Python dict stored under one description in
`commands.json` / `ConfigManager._commands`.  A field is `none` when the key is
absent from the dict. -/
structure CommandRecord where
  Phrases : Option PyVal
  Action : Option PyVal
  Command : Option PyVal
deriving DecidableEq

/-- Python `cmd.get('Phrases', [])` as iterated by the code's `for` loops:
a missing key yields `[]`, a list yields its elements, and a string yields its
characters (iterating a Python string yields one-character strings). -/
def effPhrases (r : CommandRecord) : List String :=
  match r.Phrases with
  | some (.pyList l) => l
  | some (.pyStr s) => s.data.map (fun c => String.mk [c])
  | none => []

/-- Embedding of `ValidationUtils.is_valid_command_data` (src/core/utils.py,
lines 298-334): requires the three keys, a non-empty list of phrases, an action
among `browser`, `command`, `keys`, and a non-blank command string. -/
def is_valid_command_data (r : CommandRecord) : Bool :=
  (r.Phrases.isSome && r.Action.isSome && r.Command.isSome) &&
  (match r.Phrases with
   | some (.pyList l) => !l.isEmpty
   | _ => false) &&
  (match r.Action with
   | some (.pyStr a) => a == "browser" || a == "command" || a == "keys"
   | _ => false) &&
  (match r.Command with
   | some (.pyStr c) => !(pyStrip c == "")
   | _ => false)

/-- Python dict lookup `m.get(k)` on an association list. -/
def dictGet (m : List (String × α)) (k : String) : Option α :=
  (m.find? (fun e => e.1 == k)).map (fun e => e.2)

/-- Python `k in m` on an association list. -/
def dictHas (m : List (String × α)) (k : String) : Bool :=
  m.any (fun e => e.1 == k)

/-- Python dict assignment `m[k] = v`: replace in place when the key exists
(keeping its insertion position), otherwise append. -/
def dictSet (m : List (String × α)) (k : String) (v : α) : List (String × α) :=
  if dictHas m k then m.map (fun e => if e.1 == k then (k, v) else e)
  else m ++ [(k, v)]

/-- Python `del m[k]` on an association list. -/
def dictDel (m : List (String × α)) (k : String) : List (String × α) :=
  m.filter (fun e => e.1 != k)

/-- The list comprehension in `_find_phrase_conflicts`:
`[p.strip().lower() for p in phrases if p and p.strip()]` (the `p and
p.strip()` test is equivalent to `p.strip()` being non-empty). -/
def normalizedNonEmpty (phrases : List String) : List String :=
  (phrases.filter (fun p => !(pyStrip p == ""))).map phraseNorm

/-- The guard `if exclude_description and desc == exclude_description` in
`_find_phrase_conflicts`: an empty (falsy) exclusion string excludes nothing. -/
def skipExcluded (excl : Option String) (desc : String) : Bool :=
  match excl with
  | some e => !(e == "") && desc == e
  | none => false

/-- The sequence of `conflicts[np_raw.strip()] = desc` assignments performed by
the nested loops of `_find_phrase_conflicts`, in execution order.  Note the
source's `zip(phrases, normalized_new)`: the raw list is zipped against the
filtered normalized list, so when `phrases` has blank entries the recorded raw
key can belong to a different position than the matching normalized phrase. -/
def conflictAssignments (commands : List (String × CommandRecord))
    (phrases : List String) (excl : Option String) : List (String × String) :=
  let normalizedNew := normalizedNonEmpty phrases
  commands.flatMap (fun e =>
    if skipExcluded excl e.1 then []
    else (effPhrases e.2).flatMap (fun ep =>
      if pyStrip ep == "" then []
      else (phrases.zip normalizedNew).filterMap (fun np =>
        if np.2 == pyLower (pyStrip ep) then some (pyStrip np.1, e.1) else none)))

/-- Embedding of `ConfigManager._find_phrase_conflicts` (src/core/config_manager.py,
lines 643-677): returns the dict mapping conflicting (trimmed raw) phrase to
the existing command's description, built by performing the recorded
assignments on an initially empty dict (later assignments overwrite earlier
ones, as Python dict assignment does). -/
def find_phrase_conflicts (commands : List (String × CommandRecord))
    (phrases : List String) (excl : Option String) : List (String × String) :=
  if (normalizedNonEmpty phrases).isEmpty then []
  else (conflictAssignments commands phrases excl).foldl
    (fun conflicts a => dictSet conflicts a.1 a.2) []

/-- The merge step of `_validate_all_phrase_conflicts`:
`if ph not in conflicts: conflicts[ph] = owner` for each reported conflict. -/
def mergeKeepFirst (acc contrib : List (String × String)) : List (String × String) :=
  contrib.foldl (fun acc a => if dictHas acc a.1 then acc else acc ++ [(a.1, a.2)]) acc

/-- Embedding of `ConfigManager._validate_all_phrase_conflicts`
(src/core/config_manager.py, lines 481-511): for every command with a truthy
`Phrases` value, collect `_find_phrase_conflicts` against the rest of the map
(excluding the command's own description) and merge keeping the first owner
seen per phrase. -/
def validate_all_conflicts (commands : List (String × CommandRecord)) :
    List (String × String) :=
  commands.foldl (fun conflicts e =>
    if (effPhrases e.2).isEmpty then conflicts
    else mergeKeepFirst conflicts
      (find_phrase_conflicts commands (effPhrases e.2) (some e.1))) []

/-- The parts of `ConfigManager` state that the claims are about: the in-memory
command map, the structured conflict map `_last_conflicts`, and the
human-readable `_last_error_message`. -/
structure ConfigState where
  commands : List (String × CommandRecord)
  lastConflicts : List (String × String)
  lastError : String
deriving DecidableEq

/-- The message built by `add_command` when conflicts are found. -/
def addConflictMessage (conflicts : List (String × String)) : String :=
  "Duplicate phrase(s) detected: \n" ++
    String.intercalate "\n" (conflicts.map (fun a => a.1 ++ " -> " ++ a.2)) ++
    ". \nRemove the old command(s) or Update the phrase(s) to resolve the conflict."

/-- The message built by `update_command` when conflicts are found. -/
def updateConflictMessage (conflicts : List (String × String)) : String :=
  "Duplicate phrase(s) detected: " ++
    String.intercalate ", " (conflicts.map (fun a => "'" ++ a.1 ++ "' -> " ++ a.2)) ++
    ". Remove the old command(s) or update the phrases to resolve the conflict."

/-- The message built by `save_commands` when the whole-map validation fails. -/
def saveConflictMessage (conflicts : List (String × String)) : String :=
  "Duplicate phrase(s) detected across commands: " ++
    String.intercalate ", " (conflicts.map (fun a => "'" ++ a.1 ++ "' -> " ++ a.2)) ++
    ". Remove the old command(s) or update the phrases to resolve the conflict."

/-- Embedding of `ConfigManager.save_commands` (src/core/config_manager.py,
lines 447-479): re-validate the entire command map for cross-command phrase
conflicts, abort reporting them if any are found; the actual file write
(`JsonUtils.save_json`) is out of scope and abstracted as succeeding. -/
def save_commands (s : ConfigState) : Bool × ConfigState :=
  let conflicts := validate_all_conflicts s.commands
  if conflicts.isEmpty then (true, s)
  else (false, { s with lastConflicts := conflicts,
                        lastError := saveConflictMessage conflicts })

/-- Embedding of `ConfigManager.add_command` (src/core/config_manager.py,
lines 320-366) with its default persistence behaviour (`save=None`,
`auto_save=True`): validate the record, check its phrases for conflicts
against every existing command (no exclusion on this path), and on success
store a copy and return the result of `save_commands`. -/
def add_command (s : ConfigState) (description : String)
    (command_data : CommandRecord) : Bool × ConfigState :=
  if !is_valid_command_data command_data then
    (false, { s with lastConflicts := [],
                     lastError := "Invalid command data for " ++ description })
  else
    let conflicts := find_phrase_conflicts s.commands (effPhrases command_data) none
    if !conflicts.isEmpty then
      (false, { s with lastConflicts := conflicts,
                       lastError := addConflictMessage conflicts })
    else
      save_commands { s with commands := dictSet s.commands description command_data }

/-- Embedding of `ConfigManager.update_command` (src/core/config_manager.py,
lines 368-417) with its default persistence behaviour: require the description
to exist, validate the record, check its phrases for conflicts excluding the
command's own description, and on success store a copy and return the result
of `save_commands`.  A missing description returns failure without touching
the error fields (the source only logs). -/
def update_command (s : ConfigState) (description : String)
    (command_data : CommandRecord) : Bool × ConfigState :=
  if !dictHas s.commands description then (false, s)
  else if !is_valid_command_data command_data then
    (false, { s with lastConflicts := [],
                     lastError := "Invalid command data for " ++ description })
  else
    let conflicts := find_phrase_conflicts s.commands (effPhrases command_data)
      (some description)
    if !conflicts.isEmpty then
      (false, { s with lastConflicts := conflicts,
                       lastError := updateConflictMessage conflicts })
    else
      save_commands { s with commands := dictSet s.commands description command_data }

/-- Embedding of `ConfigManager.remove_command` (src/core/config_manager.py,
lines 419-445) with its default persistence behaviour. -/
def remove_command (s : ConfigState) (description : String) : Bool × ConfigState :=
  if !dictHas s.commands description then (false, s)
  else save_commands { s with commands := dictDel s.commands description }

/-- The command map produced by one `add_command` call (the mutation performed
on `_commands`, whatever the returned boolean). -/
def addStep (m : List (String × CommandRecord)) (d : String) (r : CommandRecord) :
    List (String × CommandRecord) :=
  (add_command ⟨m, [], ""⟩ d r).2.commands

/-- The command map produced by one `update_command` call. -/
def updateStep (m : List (String × CommandRecord)) (d : String) (r : CommandRecord) :
    List (String × CommandRecord) :=
  (update_command ⟨m, [], ""⟩ d r).2.commands

/-- The command map produced by one `remove_command` call. -/
def removeStep (m : List (String × CommandRecord)) (d : String) :
    List (String × CommandRecord) :=
  (remove_command ⟨m, [], ""⟩ d).2.commands

/-- Command maps reachable from `m₀` by a finite sequence of `add_command`,
`update_command` and `remove_command` calls. -/
inductive ReachableMap : List (String × CommandRecord) → List (String × CommandRecord) → Prop where
  | refl (m : List (String × CommandRecord)) : ReachableMap m m
  | add {m₀ m : List (String × CommandRecord)} (h : ReachableMap m₀ m)
      (d : String) (r : CommandRecord) : ReachableMap m₀ (addStep m d r)
  | upd {m₀ m : List (String × CommandRecord)} (h : ReachableMap m₀ m)
      (d : String) (r : CommandRecord) : ReachableMap m₀ (updateStep m d r)
  | rem {m₀ m : List (String × CommandRecord)} (h : ReachableMap m₀ m)
      (d : String) : ReachableMap m₀ (removeStep m d)

/-- The normalized non-blank phrase set a stored record owns. -/
def nbNorms (r : CommandRecord) : List String :=
  normalizedNonEmpty (effPhrases r)

/-- The uniqueness invariant the conflict checker actually enforces: no two
distinct command descriptions own non-blank phrases that are equal after
trimming and lower-casing.  `nbNorms` mirrors the source's normalization,
which filters blank (whitespace-only) phrases out of every conflict check
before any comparison, so blank phrases are deliberately not covered: two
distinct commands can both own the phrase `" "` in a reachable state (see the
counterexample to the claim below). -/
def PairwiseDistinctPhrases (m : List (String × CommandRecord)) : Prop :=
  ∀ e1 ∈ m, ∀ e2 ∈ m, e1.1 ≠ e2.1 → ∀ q ∈ nbNorms e1.2, q ∉ nbNorms e2.2

/-- What `_validate_all_phrase_conflicts` returning an empty map actually
means: every command's phrases avoid those of every command the exclusion
guard does not skip — which, because the guard treats an empty description as
falsy, includes the command itself when its description is `""`. -/
def StoreConsistent (m : List (String × CommandRecord)) : Prop :=
  ∀ e1 ∈ m, ∀ e2 ∈ m, (e1.1 = "" ∨ e2.1 ≠ e1.1) → ∀ q ∈ nbNorms e1.2, q ∉ nbNorms e2.2

/-- Decidable prefix test on character lists (Python slice comparison). -/
def charsStartWith : List Char → List Char → Bool
  | [], _ => true
  | _ :: _, [] => false
  | a :: as, b :: bs => a == b && charsStartWith as bs

/-- Python substring containment `needle in haystack` on character lists. -/
def charsContain (needle : List Char) : List Char → Bool
  | [] => charsStartWith needle []
  | c :: cs => charsStartWith needle (c :: cs) || charsContain needle cs

/-- Python `needle in haystack` on strings. -/
def pyContains (haystack needle : String) : Bool :=
  charsContain needle.data haystack.data

/-- A regex `\w` word character, over the ASCII range the claims exercise. -/
def isWordChar (c : Char) : Bool :=
  c.isAlphanum || c == '_'

/-- Whether the character at index `i` of `t` is a word character (out of
range counts as not a word character). -/
def wordAt (t : List Char) (i : Nat) : Bool :=
  match t.get? i with
  | some c => isWordChar c
  | none => false

/-- A regex `\b` boundary before index `i`: the word-ness of the character at
`i` differs from that of the character before it (the edges of the string
count as non-word). -/
def boundaryAt (t : List Char) (i : Nat) : Bool :=
  match i with
  | 0 => wordAt t 0
  | j + 1 => wordAt t (j + 1) != wordAt t j

/-- Embedding of `CommandManager._is_word_boundary_match`
(src/core/command_manager.py, lines 153-169): whether
`re.search(r'\b' + re.escape(pattern) + r'\b', search_text)` finds a match,
i.e. the pattern occurs somewhere in the text flanked by word boundaries. -/
def is_word_boundary_match (search_text pattern : String) : Bool :=
  let t := search_text.data
  let p := pattern.data
  (List.range (t.length + 1)).any (fun i =>
    charsStartWith p (t.drop i) && boundaryAt t i && boundaryAt t (i + p.length))

/-- One entry of the `matches` list built by `parse_voice_command`. -/
structure MatchInfo where
  description : String
  pattern : String
  match_length : Nat
  is_word_boundary : Bool
deriving DecidableEq

/-- The sort key comparison used by `matches.sort(key=lambda x: (not
x['is_word_boundary'], -x['match_length'], x['description']))`: word-boundary
matches first, then longer patterns, then descriptions in ascending
lexicographic order.  This is also the tie-break order the specification
states. -/
def matchLe (a b : MatchInfo) : Bool :=
  if a.is_word_boundary != b.is_word_boundary then a.is_word_boundary
  else if a.match_length != b.match_length then decide (b.match_length < a.match_length)
  else decide (a.description ≤ b.description)

/-- Stable insertion into a sorted list: the new element goes before the first
element it compares `le` to, so elements that tie keep their original order. -/
def insertSorted (le : α → α → Bool) (x : α) : List α → List α
  | [] => [x]
  | y :: ys => if le x y then x :: y :: ys else y :: insertSorted le x ys

/-- Stable sort (insertion sort).  Python's `list.sort` is a stable sort; any
stable sort produces the same list, so this is a faithful embedding of it. -/
def stableSort (le : α → α → Bool) : List α → List α
  | [] => []
  | x :: xs => insertSorted le x (stableSort le xs)

/-- The candidate collection loop of `parse_voice_command`
(src/core/command_manager.py, lines 105-130): for every command and phrase
whose lower-cased form is a substring of the normalized text, record the
description, the original phrase, the lower-cased phrase's length and whether
it matches at a word boundary. -/
def collectMatches (commands : List (String × CommandRecord))
    (voice_text_lower : String) : List MatchInfo :=
  commands.flatMap (fun e =>
    (effPhrases e.2).filterMap (fun pattern =>
      let pattern_lower := pyLower pattern
      if pyContains voice_text_lower pattern_lower then
        some ⟨e.1, pattern, pattern_lower.data.length,
          is_word_boundary_match voice_text_lower pattern_lower⟩
      else none))

/-- Python `s.replace(old, "")` for a non-empty `old`, written with explicit
fuel so that it reduces definitionally: remove every non-overlapping
occurrence in one left-to-right scan.  The fuel (initially the text's length)
never runs out, because each step consumes at least one character. -/
def removeOccurrencesAux (old : List Char) : Nat → List Char → List Char
  | 0, s => s
  | _ + 1, [] => []
  | fuel + 1, c :: cs =>
    if charsStartWith old (c :: cs) && !old.isEmpty then
      removeOccurrencesAux old fuel ((c :: cs).drop old.length)
    else c :: removeOccurrencesAux old fuel cs

/-- Python `s.replace(old, "")`: the scan with enough fuel for the whole text. -/
def removeOccurrences (old s : List Char) : List Char :=
  removeOccurrencesAux old s.length s

/-- Python `text.replace(pattern, "")` on strings (the `old = ""` case returns
the text unchanged, as `"x".replace("", "")` does). -/
def pyReplaceWithEmpty (text pattern : String) : String :=
  ⟨removeOccurrences pattern.data text.data⟩

/-- Embedding of `CommandManager.parse_voice_command`
(src/core/command_manager.py, lines 89-151): normalize the input, collect the
candidates, and if any exist return the best under `matchLe` (the source sorts
the list with Python's stable sort and takes the first element) together with
the remainder obtained by deleting the winning pattern from the original-cased
input and stripping; otherwise return no description, an empty matched
pattern, and the input unchanged. -/
def parse_voice_command (commands : List (String × CommandRecord))
    (voice_text : String) : Option String × String × String :=
  match stableSort matchLe (collectMatches commands (pyStrip (pyLower voice_text))) with
  | [] => (none, "", voice_text)
  | best :: _ =>
    (some best.description, best.pattern,
      pyStrip (pyReplaceWithEmpty voice_text best.pattern))

/-- A command-record dict as an object on the Python heap: the `Action` and
`Command` values are immutable strings, while `Phrases` holds a reference to a
mutable list object. -/
structure RecObj where
  phrasesRef : Nat
  action : String
  command : String
deriving DecidableEq

/-- The slice of the Python heap the snapshot claims are about: the
command-record dict objects and the phrase-list objects, addressed by
reference. -/
structure Heap where
  recs : List (Nat × RecObj)
  phraseLists : List (Nat × List String)
deriving DecidableEq

/-- Look up a record object by reference. -/
def Heap.getRec (σ : Heap) (r : Nat) : Option RecObj :=
  (σ.recs.find? (fun e => e.1 == r)).map (fun e => e.2)

/-- Look up a phrase-list object by reference. -/
def Heap.getPhraseList (σ : Heap) (r : Nat) : Option (List String) :=
  (σ.phraseLists.find? (fun e => e.1 == r)).map (fun e => e.2)

/-- A reference unused by any record object in the heap. -/
def Heap.freshRecRef (σ : Heap) : Nat :=
  (σ.recs.map (fun e => e.1)).foldr max 0 + 1

/-- In-place mutation of a field of a record object: Python
`rec['Action'] = a` through a reference. -/
def Heap.setRecAction (σ : Heap) (r : Nat) (a : String) : Heap :=
  { σ with recs := σ.recs.map (fun e => if e.1 == r then (e.1, { e.2 with action := a }) else e) }

/-- In-place mutation of a phrase-list object: Python `lst.append(p)` through
a reference. -/
def Heap.appendPhrase (σ : Heap) (r : Nat) (p : String) : Heap :=
  { σ with phraseLists := σ.phraseLists.map (fun e => if e.1 == r then (e.1, e.2 ++ [p]) else e) }

/-- The store's `_commands` dict in heap terms: descriptions mapped to
references to record objects. -/
abbrev CommandRefs := List (String × Nat)

/-- Embedding of `ConfigManager.get_command` (src/core/config_manager.py,
lines 310-313) at the heap level: `self._commands.get(description, {}).copy()`
allocates a fresh record object with the same field values — in particular the
same `Phrases` list reference, since `dict.copy()` is shallow. -/
def heap_get_command (σ : Heap) (m : CommandRefs) (d : String) :
    Option Nat × Heap :=
  match dictGet m d with
  | none => (none, σ)
  | some r =>
    match σ.getRec r with
    | none => (none, σ)
    | some rv =>
      let fresh := σ.freshRecRef
      (some fresh, { σ with recs := σ.recs ++ [(fresh, rv)] })

/-- Embedding of `ConfigManager.get_all_commands` (src/core/config_manager.py,
lines 315-318) at the heap level: `self._commands.copy()` is a new outer dict
holding the same record-object references. -/
def heap_get_all_commands (m : CommandRefs) : CommandRefs :=
  m

/-- Read the phrases of a stored command through the store's own dict. -/
def storePhrases (σ : Heap) (m : CommandRefs) (d : String) : Option (List String) :=
  match dictGet m d with
  | none => none
  | some r =>
    match σ.getRec r with
    | none => none
    | some rv => σ.getPhraseList rv.phrasesRef

/-- Read the action of a stored command through the store's own dict. -/
def storeAction (σ : Heap) (m : CommandRefs) (d : String) : Option String :=
  match dictGet m d with
  | none => none
  | some r =>
    match σ.getRec r with
    | none => none
    | some rv => some rv.action

/-- Every record reference the store's dict holds is allocated in the heap
(always true of a live Python dict). -/
def WfRefs (σ : Heap) (m : CommandRefs) : Prop :=
  ∀ e ∈ m, ∃ rv, σ.getRec e.2 = some rv

/-! ### Concrete records used in the examples below -/

/-- A record owning the phrase `go`. -/
def recGo : CommandRecord :=
  ⟨some (.pyList ["go"]), some (.pyStr "command"), some (.pyStr "run.exe")⟩

/-- The existing `Open Notepad` record of the specification's example. -/
def recNotepad : CommandRecord :=
  ⟨some (.pyList ["notepad"]), some (.pyStr "command"), some (.pyStr "notepad.exe")⟩

/-- The candidate `Launch Notepad` record of the specification's example. -/
def recLaunch : CommandRecord :=
  ⟨some (.pyList ["notepad"]), some (.pyStr "command"), some (.pyStr "notepad.exe")⟩

/-- A structurally valid record whose phrase list starts with a blank entry
before the colliding phrase. -/
def recBlankNotepad : CommandRecord :=
  ⟨some (.pyList ["", "notepad"]), some (.pyStr "command"), some (.pyStr "notepad.exe")⟩

/-- A record with a colliding phrase but an invalid action value. -/
def recBadAction : CommandRecord :=
  ⟨some (.pyList ["notepad"]), some (.pyStr "bogus"), some (.pyStr "notepad.exe")⟩

/-- A record with the given action value and otherwise valid fields. -/
def recWithAction (a : String) : CommandRecord :=
  ⟨some (.pyList ["show phrases"]), some (.pyStr a), some (.pyStr "show_phrases")⟩

/-- Command A of the resolver example: phrase `open browser`. -/
def recOpenBrowser : CommandRecord :=
  ⟨some (.pyList ["open browser"]), some (.pyStr "command"), some (.pyStr "firefox")⟩

/-- Command B of the resolver example: phrase `browser`. -/
def recBrowser : CommandRecord :=
  ⟨some (.pyList ["browser"]), some (.pyStr "command"), some (.pyStr "firefox")⟩

/-- A structurally valid record whose only phrase is whitespace. -/
def recWhitespace : CommandRecord :=
  ⟨some (.pyList [" "]), some (.pyStr "command"), some (.pyStr "run.exe")⟩

/-- A record owning the phrase `x`. -/
def recPhraseX : CommandRecord :=
  ⟨some (.pyList ["x"]), some (.pyStr "command"), some (.pyStr "run.exe")⟩

/-- A record owning the phrase `y`. -/
def recPhraseY : CommandRecord :=
  ⟨some (.pyList ["y"]), some (.pyStr "command"), some (.pyStr "run.exe")⟩

/-- A record owning the phrase `z`. -/
def recPhraseZ : CommandRecord :=
  ⟨some (.pyList ["z"]), some (.pyStr "command"), some (.pyStr "run.exe")⟩

/-- The record object of the heap examples: its phrase list lives at
address 0. -/
def heapRec : RecObj := ⟨0, "command", "notepad.exe"⟩

/-- A heap holding one command record (address 0) and its phrase list
(address 0). -/
def heapEx : Heap := ⟨[(0, heapRec)], [(0, ["go"])]⟩

/-- The heap after `get_command` copied the record dict: a second record
object (address 1) sharing the phrase list at address 0. -/
def heapExCopy : Heap := ⟨[(0, heapRec), (1, heapRec)], [(0, ["go"])]⟩

/-- The store's command dict of the heap examples. -/
def mapEx : CommandRefs := [("X", 0)]

/-! ### Dictionary lemmas -/

theorem dictHas_of_key_mem {m : List (String × α)} {e : String × α}
    (h : e ∈ m) : dictHas m e.1 = true :=
  List.any_eq_true.mpr ⟨e, h, by simp⟩

theorem dictSet_ne_nil (m : List (String × α)) (k : String) (v : α) :
    dictSet m k v ≠ [] := by
  unfold dictSet
  split
  · rename_i h
    intro hmap
    rw [List.map_eq_nil_iff] at hmap
    subst hmap
    simp [dictHas] at h
  · simp

theorem mem_dictSet {m : List (String × α)} {k : String} {v : α} {e : String × α}
    (h : e ∈ dictSet m k v) : e = (k, v) ∨ (e ∈ m ∧ e.1 ≠ k) := by
  unfold dictSet at h
  by_cases hhas : dictHas m k = true
  · rw [if_pos hhas] at h
    rcases List.mem_map.mp h with ⟨e', he', heq⟩
    by_cases hk : e'.1 = k
    · left
      rw [if_pos (beq_iff_eq.mpr hk)] at heq
      exact heq.symm
    · right
      rw [if_neg (by simpa using hk)] at heq
      subst heq
      exact ⟨he', hk⟩
  · rw [if_neg hhas] at h
    rcases List.mem_append.mp h with h' | h'
    · right
      refine ⟨h', fun hk => hhas ?_⟩
      have := dictHas_of_key_mem h'
      rwa [hk] at this
    · left
      simpa using h'

theorem find?_key_map_set (m : List (String × α)) (k k' : String) (v : α)
    (h : k' ≠ k) :
    List.find? (fun e => e.1 == k') (m.map (fun e => if e.1 == k then (k, v) else e)) =
      List.find? (fun e => e.1 == k') m := by
  induction m with
  | nil => rfl
  | cons a as ih =>
    simp only [List.map_cons]
    by_cases ha : a.1 = k
    · rw [if_pos (beq_iff_eq.mpr ha)]
      rw [List.find?_cons_of_neg _ (by simpa using fun hh => h hh.symm)]
      rw [List.find?_cons_of_neg _ (by rw [ha]; simpa using fun hh => h hh.symm)]
      exact ih
    · rw [if_neg (by simpa using ha)]
      by_cases ha' : a.1 = k'
      · rw [List.find?_cons_of_pos _ (by simpa using ha'),
          List.find?_cons_of_pos _ (by simpa using ha')]
      · rw [List.find?_cons_of_neg _ (by simpa using ha'),
          List.find?_cons_of_neg _ (by simpa using ha')]
        exact ih

theorem dictHas_of_dictGet_some {m : List (String × α)} {k : String} {v : α}
    (h : dictGet m k = some v) : dictHas m k = true := by
  unfold dictGet at h
  rcases Option.map_eq_some'.mp h with ⟨e, he, -⟩
  unfold dictHas
  rw [List.any_eq_true]
  have hp := List.find?_some he
  exact ⟨e, List.mem_of_find?_eq_some he, hp⟩

theorem dictHas_iff {m : List (String × α)} {k : String} :
    dictHas m k = true ↔ ∃ v, (k, v) ∈ m := by
  unfold dictHas
  rw [List.any_eq_true]
  constructor
  · rintro ⟨e, he, hk⟩
    refine ⟨e.2, ?_⟩
    have : e.1 = k := by simpa using hk
    rw [← this]
    exact he
  · rintro ⟨v, hv⟩
    exact ⟨(k, v), hv, by simp⟩

theorem dictGet_dictSet_self (m : List (String × α)) (k : String) (v : α) :
    dictGet (dictSet m k v) k = some v := by
  unfold dictGet dictSet
  by_cases hhas : dictHas m k = true
  · rw [if_pos hhas]
    rcases dictHas_iff.mp hhas with ⟨w, hw⟩
    clear hhas
    induction m with
    | nil => cases hw
    | cons a as ih =>
      simp only [List.map_cons]
      by_cases ha : a.1 = k
      · rw [if_pos (beq_iff_eq.mpr ha)]
        simp [List.find?_cons]
      · rw [if_neg (by simpa using ha)]
        rw [List.find?_cons_of_neg _ (by simpa using ha)]
        rcases List.mem_cons.mp hw with heq | hw'
        · exact absurd (by rw [← heq]) ha
        · exact ih hw'
  · rw [if_neg hhas]
    rw [Bool.not_eq_true] at hhas
    unfold dictHas at hhas
    rw [List.any_eq_false] at hhas
    induction m with
    | nil => simp
    | cons a as ih =>
      rw [List.cons_append]
      have hf : (a.1 == k) = false := by simpa using hhas a (by simp)
      simp only [List.find?_cons, hf]
      exact ih (fun e he => hhas e (List.mem_cons_of_mem a he))

theorem dictGet_dictSet_ne (m : List (String × α)) (k k' : String) (v : α)
    (h : k' ≠ k) : dictGet (dictSet m k v) k' = dictGet m k' := by
  unfold dictGet dictSet
  by_cases hhas : dictHas m k = true
  · rw [if_pos hhas, find?_key_map_set m k k' v h]
  · rw [if_neg hhas]
    rw [Bool.not_eq_true] at hhas
    unfold dictHas at hhas
    rw [List.any_eq_false] at hhas
    induction m with
    | nil => simp [show ¬ (k == k') = true from by simpa using fun hh => h hh.symm]
    | cons a as ih =>
      rw [List.cons_append]
      by_cases ha' : a.1 = k'
      · have ht : (a.1 == k') = true := by simpa using ha'
        simp only [List.find?_cons, ht]
      · have hf : (a.1 == k') = false := by simpa using ha'
        simp only [List.find?_cons, hf]
        exact ih (fun e he => hhas e (List.mem_cons_of_mem a he))

/-! ### Folding assignments into a dict -/

theorem foldl_dictSet_ne_nil (l : List (String × String))
    (init : List (String × String)) (h : init ≠ []) :
    l.foldl (fun d a => dictSet d a.1 a.2) init ≠ [] := by
  induction l generalizing init with
  | nil => exact h
  | cons a as ih => exact ih _ (dictSet_ne_nil init a.1 a.2)

theorem foldl_dictSet_eq_nil_iff (l : List (String × String)) :
    l.foldl (fun d a => dictSet d a.1 a.2) [] = [] ↔ l = [] := by
  cases l with
  | nil => simp
  | cons a as =>
    simp only [List.foldl_cons]
    constructor
    · intro h
      exact absurd h (foldl_dictSet_ne_nil as _ (dictSet_ne_nil [] a.1 a.2))
    · intro h
      cases h

theorem dictGet_foldl_dictSet_mem (l : List (String × String))
    (init : List (String × String)) (k : String) (v : String)
    (h : dictGet (l.foldl (fun d a => dictSet d a.1 a.2) init) k = some v) :
    (k, v) ∈ l ∨ dictGet init k = some v := by
  induction l generalizing init with
  | nil => exact Or.inr h
  | cons a as ih =>
    rcases ih (dictSet init a.1 a.2) h with hmem | hget
    · exact Or.inl (List.mem_cons_of_mem a hmem)
    · by_cases hk : k = a.1
      · rw [hk, dictGet_dictSet_self] at hget
        left
        have hv : a.2 = v := by simpa using hget
        have hkv : (k, v) = a := by
          rw [hk, ← hv]
        rw [hkv]
        exact List.mem_cons_self a as
      · right
        rwa [dictGet_dictSet_ne init a.1 k a.2 hk] at hget

theorem dictGet_foldl_dictSet_isSome (l : List (String × String))
    (init : List (String × String)) (k : String)
    (h : k ∈ l.map Prod.fst ∨ (dictGet init k).isSome = true) :
    (dictGet (l.foldl (fun d a => dictSet d a.1 a.2) init) k).isSome = true := by
  induction l generalizing init with
  | nil =>
    rcases h with h | h
    · cases h
    · exact h
  | cons a as ih =>
    simp only [List.foldl_cons]
    rcases h with h | h
    · rw [List.map_cons] at h
      rcases List.mem_cons.mp h with hk | hk
      · refine ih (dictSet init a.1 a.2) (Or.inr ?_)
        rw [hk, dictGet_dictSet_self]
        rfl
      · exact ih (dictSet init a.1 a.2) (Or.inl hk)
    · by_cases hk : k = a.1
      · refine ih (dictSet init a.1 a.2) (Or.inr ?_)
        rw [hk, dictGet_dictSet_self]
        rfl
      · refine ih (dictSet init a.1 a.2) (Or.inr ?_)
        rwa [dictGet_dictSet_ne init a.1 k a.2 hk]

theorem mergeKeepFirst_eq_nil_iff (acc contrib : List (String × String)) :
    mergeKeepFirst acc contrib = [] ↔ acc = [] ∧ contrib = [] := by
  unfold mergeKeepFirst
  induction contrib generalizing acc with
  | nil => simp
  | cons a as ih =>
    simp only [List.foldl_cons]
    by_cases hhas : dictHas acc a.1 = true
    · rw [if_pos hhas]
      rw [ih acc]
      constructor
      · rintro ⟨rfl, rfl⟩
        simp [dictHas] at hhas
      · rintro ⟨rfl, h⟩
        cases h
    · rw [if_neg hhas]
      rw [ih (acc ++ [(a.1, a.2)])]
      constructor
      · rintro ⟨hnil, rfl⟩
        exact absurd hnil (by simp)
      · rintro ⟨rfl, h⟩
        cases h

/-! ### Characterizing empty conflict results -/

/-- What an empty result of `_find_phrase_conflicts` means: no normalized
candidate phrase equals the normalized form of any non-blank phrase of any
non-excluded command. -/
def NoConflict (commands : List (String × CommandRecord)) (phrases : List String)
    (excl : Option String) : Prop :=
  ∀ e ∈ commands, skipExcluded excl e.1 = false →
    ∀ ep ∈ effPhrases e.2, pyStrip ep ≠ "" →
      ∀ q ∈ normalizedNonEmpty phrases, q ≠ phraseNorm ep

theorem normalizedNonEmpty_length_le (ps : List String) :
    (normalizedNonEmpty ps).length ≤ ps.length := by
  unfold normalizedNonEmpty
  rw [List.length_map]
  exact List.length_filter_le _ _

theorem exists_zip_of_mem_normalized (ps : List String) {q : String}
    (h : q ∈ normalizedNonEmpty ps) :
    ∃ np ∈ ps.zip (normalizedNonEmpty ps), np.2 = q := by
  have hmap : (ps.zip (normalizedNonEmpty ps)).map Prod.snd = normalizedNonEmpty ps :=
    List.map_snd_zip _ _ (normalizedNonEmpty_length_le ps)
  rw [← hmap] at h
  rcases List.mem_map.mp h with ⟨np, hnp, h2⟩
  exact ⟨np, hnp, h2⟩

theorem zip_snd_mem_normalized (ps : List String) {np : String × String}
    (h : np ∈ ps.zip (normalizedNonEmpty ps)) : np.2 ∈ normalizedNonEmpty ps := by
  have hmap : (ps.zip (normalizedNonEmpty ps)).map Prod.snd = normalizedNonEmpty ps :=
    List.map_snd_zip _ _ (normalizedNonEmpty_length_le ps)
  rw [← hmap]
  exact List.mem_map.mpr ⟨np, h, rfl⟩

theorem mem_normalizedNonEmpty {ps : List String} {q : String} :
    q ∈ normalizedNonEmpty ps ↔ ∃ p ∈ ps, pyStrip p ≠ "" ∧ q = phraseNorm p := by
  unfold normalizedNonEmpty
  constructor
  · intro h
    rcases List.mem_map.mp h with ⟨p, hp, hq⟩
    rcases List.mem_filter.mp hp with ⟨hp', hblank⟩
    exact ⟨p, hp', by simpa using hblank, hq.symm⟩
  · rintro ⟨p, hp, hblank, rfl⟩
    exact List.mem_map.mpr ⟨p, List.mem_filter.mpr ⟨hp, by simpa using hblank⟩, rfl⟩

theorem conflictAssignments_eq_nil_iff (m : List (String × CommandRecord))
    (ps : List String) (excl : Option String) :
    conflictAssignments m ps excl = [] ↔ NoConflict m ps excl := by
  unfold conflictAssignments NoConflict
  rw [List.flatMap_eq_nil_iff]
  constructor
  · intro h e he hskip ep hep hblank q hq heq
    have h1 := h e he
    rw [hskip] at h1
    simp only [Bool.false_eq_true, if_false] at h1
    rw [List.flatMap_eq_nil_iff] at h1
    have h2 := h1 ep hep
    rw [if_neg (by simpa using hblank)] at h2
    rw [List.filterMap_eq_nil_iff] at h2
    rcases exists_zip_of_mem_normalized ps hq with ⟨np, hnp, hq2⟩
    have h3 := h2 np hnp
    rw [if_pos (by rw [hq2, heq]; simp [phraseNorm])] at h3
    cases h3
  · intro h e he
    by_cases hskip : skipExcluded excl e.1 = true
    · rw [if_pos hskip]
    · rw [if_neg hskip]
      rw [List.flatMap_eq_nil_iff]
      intro ep hep
      by_cases hblank : pyStrip ep = ""
      · rw [if_pos (by simpa using hblank)]
      · rw [if_neg (by simpa using hblank)]
        rw [List.filterMap_eq_nil_iff]
        intro np hnp
        have hmem := zip_snd_mem_normalized ps hnp
        have hne := h e he (by simpa using hskip) ep hep hblank np.2 hmem
        rw [if_neg (by simpa [phraseNorm] using hne)]

theorem find_eq_nil_iff (m : List (String × CommandRecord)) (ps : List String)
    (excl : Option String) :
    find_phrase_conflicts m ps excl = [] ↔ NoConflict m ps excl := by
  unfold find_phrase_conflicts
  by_cases hnn : (normalizedNonEmpty ps).isEmpty = true
  · rw [if_pos hnn]
    constructor
    · intro _ e he hs ep hep hb q hq
      rw [List.isEmpty_iff] at hnn
      rw [hnn] at hq
      cases hq
    · intro _
      rfl
  · rw [if_neg hnn]
    rw [foldl_dictSet_eq_nil_iff]
    exact conflictAssignments_eq_nil_iff m ps excl

theorem skipExcluded_some_eq_false_iff {d desc : String} :
    skipExcluded (some d) desc = false ↔ (d = "" ∨ desc ≠ d) := by
  unfold skipExcluded
  by_cases hd : d = ""
  · subst hd
    simp
  · simp [hd]

theorem validate_all_foldl_aux (m full : List (String × CommandRecord))
    (init : List (String × String)) :
    (m.foldl (fun conflicts e =>
        if (effPhrases e.2).isEmpty then conflicts
        else mergeKeepFirst conflicts
          (find_phrase_conflicts full (effPhrases e.2) (some e.1))) init) = []
      ↔ init = [] ∧ ∀ e ∈ m, (effPhrases e.2).isEmpty = true ∨
          find_phrase_conflicts full (effPhrases e.2) (some e.1) = [] := by
  induction m generalizing init with
  | nil => simp
  | cons a as ih =>
    simp only [List.foldl_cons]
    by_cases ha : (effPhrases a.2).isEmpty = true
    · rw [if_pos ha, ih]
      constructor
      · rintro ⟨h1, h2⟩
        refine ⟨h1, fun e he => ?_⟩
        rcases List.mem_cons.mp he with rfl | he'
        · exact Or.inl ha
        · exact h2 e he'
      · rintro ⟨h1, h2⟩
        exact ⟨h1, fun e he => h2 e (List.mem_cons_of_mem a he)⟩
    · rw [if_neg ha, ih]
      rw [mergeKeepFirst_eq_nil_iff]
      constructor
      · rintro ⟨⟨h1, h0⟩, h2⟩
        refine ⟨h1, fun e he => ?_⟩
        rcases List.mem_cons.mp he with rfl | he'
        · exact Or.inr h0
        · exact h2 e he'
      · rintro ⟨h1, h2⟩
        refine ⟨⟨h1, ?_⟩, fun e he => h2 e (List.mem_cons_of_mem a he)⟩
        rcases h2 a (List.mem_cons_self a as) with h | h
        · exact absurd h ha
        · exact h

theorem validate_all_eq_nil_iff (m : List (String × CommandRecord)) :
    validate_all_conflicts m = [] ↔ StoreConsistent m := by
  unfold validate_all_conflicts
  rw [validate_all_foldl_aux m m []]
  constructor
  · rintro ⟨-, h⟩ e1 he1 e2 he2 hcond q hq1 hq2
    rcases h e1 he1 with hempty | hfind
    · rw [List.isEmpty_iff] at hempty
      unfold nbNorms at hq1
      rw [hempty] at hq1
      cases hq1
    · have hnc := (find_eq_nil_iff m (effPhrases e1.2) (some e1.1)).mp hfind
      have hskip : skipExcluded (some e1.1) e2.1 = false :=
        skipExcluded_some_eq_false_iff.mpr hcond
      rcases mem_normalizedNonEmpty.mp hq2 with ⟨ep, hep, hblank, hq2'⟩
      exact hnc e2 he2 hskip ep hep hblank q hq1 hq2' 
  · intro h
    refine ⟨rfl, fun e he => ?_⟩
    by_cases hempty : (effPhrases e.2).isEmpty = true
    · exact Or.inl hempty
    · refine Or.inr ((find_eq_nil_iff m (effPhrases e.2) (some e.1)).mpr ?_)
      intro e2 he2 hskip ep hep hblank q hq heq
      have hcond := skipExcluded_some_eq_false_iff.mp hskip
      have := h e he e2 he2 hcond q hq
      exact this (mem_normalizedNonEmpty.mpr ⟨ep, hep, hblank, heq⟩)

/-! ### The mutation steps and the uniqueness invariant -/

theorem save_commands_snd_commands (s : ConfigState) :
    (save_commands s).2.commands = s.commands := by
  unfold save_commands
  by_cases h : (validate_all_conflicts s.commands).isEmpty = true
  · rw [if_pos h]
  · rw [if_neg h]

theorem addStep_eq (m : List (String × CommandRecord)) (d : String)
    (r : CommandRecord) :
    addStep m d r = m ∨
      (find_phrase_conflicts m (effPhrases r) none = [] ∧
        addStep m d r = dictSet m d r) := by
  unfold addStep add_command
  by_cases hv : is_valid_command_data r = true
  · simp only [hv, Bool.not_true, Bool.false_eq_true, if_false]
    by_cases hc : find_phrase_conflicts m (effPhrases r) none = []
    · right
      refine ⟨hc, ?_⟩
      have he : (find_phrase_conflicts (ConfigState.mk m [] "").commands
          (effPhrases r) none).isEmpty = true := by
        simpa [List.isEmpty_iff] using hc
      simp only [he, Bool.not_true, Bool.false_eq_true, if_false]
      exact save_commands_snd_commands _
    · left
      have he : (find_phrase_conflicts (ConfigState.mk m [] "").commands
          (effPhrases r) none).isEmpty = false := by
        simpa [List.isEmpty_iff] using hc
      simp only [he, Bool.not_false, if_true]
  · left
    simp only [Bool.not_eq_true] at hv
    simp only [hv, Bool.not_false, if_true]

theorem updateStep_eq (m : List (String × CommandRecord)) (d : String)
    (r : CommandRecord) :
    updateStep m d r = m ∨
      (find_phrase_conflicts m (effPhrases r) (some d) = [] ∧
        updateStep m d r = dictSet m d r) := by
  unfold updateStep update_command
  by_cases hh : dictHas m d = true
  · simp only [hh, Bool.not_true, Bool.false_eq_true, if_false]
    by_cases hv : is_valid_command_data r = true
    · simp only [hv, Bool.not_true, Bool.false_eq_true, if_false]
      by_cases hc : find_phrase_conflicts m (effPhrases r) (some d) = []
      · right
        refine ⟨hc, ?_⟩
        have he : (find_phrase_conflicts (ConfigState.mk m [] "").commands
            (effPhrases r) (some d)).isEmpty = true := by
          simpa [List.isEmpty_iff] using hc
        simp only [he, Bool.not_true, Bool.false_eq_true, if_false]
        exact save_commands_snd_commands _
      · left
        have he : (find_phrase_conflicts (ConfigState.mk m [] "").commands
            (effPhrases r) (some d)).isEmpty = false := by
          simpa [List.isEmpty_iff] using hc
        simp only [he, Bool.not_false, if_true]
    · left
      simp only [Bool.not_eq_true] at hv
      simp only [hv, Bool.not_false, if_true]
  · left
    simp only [Bool.not_eq_true] at hh
    simp only [hh, Bool.not_false, if_true]

theorem removeStep_eq (m : List (String × CommandRecord)) (d : String) :
    removeStep m d = m ∨ removeStep m d = dictDel m d := by
  unfold removeStep remove_command
  by_cases hh : dictHas m d = true
  · simp only [hh, Bool.not_true, Bool.false_eq_true, if_false]
    right
    exact save_commands_snd_commands _
  · left
    simp only [Bool.not_eq_true] at hh
    simp only [hh, Bool.not_false, if_true]

theorem PairwiseDistinct_of_StoreConsistent {m : List (String × CommandRecord)}
    (h : StoreConsistent m) : PairwiseDistinctPhrases m :=
  fun e1 h1 e2 h2 hne q hq => h e1 h1 e2 h2 (Or.inr (fun hh => hne hh.symm)) q hq

theorem StoreConsistent_of_PairwiseDistinct {m : List (String × CommandRecord)}
    (h : PairwiseDistinctPhrases m) (hk : ∀ e ∈ m, e.1 ≠ "") :
    StoreConsistent m := by
  intro e1 h1 e2 h2 hcond q hq
  rcases hcond with hc | hc
  · exact absurd hc (hk e1 h1)
  · exact h e1 h1 e2 h2 (fun hh => hc hh.symm) q hq

theorem disjoint_of_find_nil {m : List (String × CommandRecord)}
    {ps : List String} {excl : Option String}
    (h : find_phrase_conflicts m ps excl = []) :
    ∀ e ∈ m, skipExcluded excl e.1 = false →
      ∀ q ∈ normalizedNonEmpty ps, q ∉ normalizedNonEmpty (effPhrases e.2) := by
  intro e he hskip q hq hmem
  rcases mem_normalizedNonEmpty.mp hmem with ⟨ep, hep, hblank, heq⟩
  exact (find_eq_nil_iff m ps excl).mp h e he hskip ep hep hblank q hq heq

theorem PairwiseDistinct_dictSet {m : List (String × CommandRecord)}
    {d : String} {r : CommandRecord}
    (hpd : PairwiseDistinctPhrases m)
    (hdisj : ∀ e ∈ m, e.1 ≠ d → ∀ q ∈ nbNorms r, q ∉ nbNorms e.2) :
    PairwiseDistinctPhrases (dictSet m d r) := by
  intro e1 h1 e2 h2 hne q hq
  rcases mem_dictSet h1 with rfl | ⟨h1m, h1k⟩
  · rcases mem_dictSet h2 with rfl | ⟨h2m, h2k⟩
    · exact absurd rfl hne
    · exact hdisj e2 h2m h2k q hq
  · rcases mem_dictSet h2 with rfl | ⟨h2m, h2k⟩
    · intro hq2
      exact hdisj e1 h1m h1k q hq2 hq
    · exact hpd e1 h1m e2 h2m hne q hq

theorem PairwiseDistinct_dictDel {m : List (String × CommandRecord)} {d : String}
    (hpd : PairwiseDistinctPhrases m) :
    PairwiseDistinctPhrases (dictDel m d) := by
  intro e1 h1 e2 h2 hne q hq
  exact hpd e1 (List.mem_filter.mp h1).1 e2 (List.mem_filter.mp h2).1 hne q hq

theorem reachable_pairwise_distinct {m₀ m : List (String × CommandRecord)}
    (h0 : PairwiseDistinctPhrases m₀) (hr : ReachableMap m₀ m) :
    PairwiseDistinctPhrases m := by
  induction hr with
  | refl => exact h0
  | add h d r ih =>
    rcases addStep_eq _ d r with heq | ⟨hfind, heq⟩
    · rwa [heq]
    · rw [heq]
      refine PairwiseDistinct_dictSet ih (fun e he _ q hq => ?_)
      exact disjoint_of_find_nil hfind e he rfl q hq
  | upd h d r ih =>
    rcases updateStep_eq _ d r with heq | ⟨hfind, heq⟩
    · rwa [heq]
    · rw [heq]
      refine PairwiseDistinct_dictSet ih (fun e he hek q hq => ?_)
      refine disjoint_of_find_nil hfind e he ?_ q hq
      exact skipExcluded_some_eq_false_iff.mpr (Or.inr hek)
  | rem h d ih =>
    rcases removeStep_eq _ d with heq | heq
    · rwa [heq]
    · rw [heq]
      exact PairwiseDistinct_dictDel ih

theorem StoreConsistent_dictSet {m : List (String × CommandRecord)}
    {d : String} {r : CommandRecord}
    (hsc : StoreConsistent m) (hd : d ≠ "")
    (hdisj : ∀ e ∈ m, e.1 ≠ d → ∀ q ∈ nbNorms r, q ∉ nbNorms e.2) :
    StoreConsistent (dictSet m d r) := by
  intro e1 h1 e2 h2 hcond q hq
  rcases mem_dictSet h1 with rfl | ⟨h1m, h1k⟩
  · rcases hcond with hc | hc
    · exact absurd hc hd
    · rcases mem_dictSet h2 with rfl | ⟨h2m, h2k⟩
      · exact absurd rfl hc
      · exact hdisj e2 h2m h2k q hq
  · rcases mem_dictSet h2 with rfl | ⟨h2m, h2k⟩
    · intro hq2
      rcases hcond with hc | hc
      · exact hsc e1 h1m e1 h1m (Or.inl hc) q hq hq
      · exact hdisj e1 h1m (fun hh => hc hh.symm) q hq2 hq
    · exact hsc e1 h1m e2 h2m hcond q hq

theorem add_command_success {m : List (String × CommandRecord)} {d : String}
    {r : CommandRecord} (cf : List (String × String)) (err : String)
    (hv : is_valid_command_data r = true)
    (hfind : find_phrase_conflicts m (effPhrases r) none = [])
    (hva : validate_all_conflicts (dictSet m d r) = []) :
    add_command ⟨m, cf, err⟩ d r = (true, ⟨dictSet m d r, cf, err⟩) := by
  unfold add_command
  simp only [hv, Bool.not_true, Bool.false_eq_true, if_false]
  have he : (find_phrase_conflicts (ConfigState.mk m cf err).commands
      (effPhrases r) none).isEmpty = true := by
    simpa [List.isEmpty_iff] using hfind
  simp only [he, Bool.not_true, Bool.false_eq_true, if_false]
  unfold save_commands
  simp only [List.isEmpty_iff]
  simp [hva]

theorem update_command_success {m : List (String × CommandRecord)} {d : String}
    {r : CommandRecord} (cf : List (String × String)) (err : String)
    (hhas : dictHas m d = true)
    (hv : is_valid_command_data r = true)
    (hfind : find_phrase_conflicts m (effPhrases r) (some d) = [])
    (hva : validate_all_conflicts (dictSet m d r) = []) :
    update_command ⟨m, cf, err⟩ d r = (true, ⟨dictSet m d r, cf, err⟩) := by
  unfold update_command
  simp only [hhas, Bool.not_true, Bool.false_eq_true, if_false]
  simp only [hv, Bool.not_true, Bool.false_eq_true, if_false]
  have he : (find_phrase_conflicts (ConfigState.mk m cf err).commands
      (effPhrases r) (some d)).isEmpty = true := by
    simpa [List.isEmpty_iff] using hfind
  simp only [he, Bool.not_true, Bool.false_eq_true, if_false]
  unfold save_commands
  simp only [List.isEmpty_iff]
  simp [hva]

/-! ### Locating entries of the conflict map -/

theorem phraseNorm_eq_of_strip_eq {a b : String} (h : pyStrip a = pyStrip b) :
    phraseNorm a = phraseNorm b := by
  unfold phraseNorm
  rw [h]

theorem normalizedNonEmpty_eq_map {ps : List String}
    (hall : ∀ q ∈ ps, pyStrip q ≠ "") :
    normalizedNonEmpty ps = ps.map phraseNorm := by
  unfold normalizedNonEmpty
  rw [List.filter_eq_self.mpr (fun a ha => by simpa using hall a ha)]

theorem zip_normalized_eq_map {ps : List String}
    (hall : ∀ q ∈ ps, pyStrip q ≠ "") :
    ps.zip (normalizedNonEmpty ps) = ps.map (fun q => (q, phraseNorm q)) := by
  rw [normalizedNonEmpty_eq_map hall]
  have h := List.zip_map' id phraseNorm ps
  simpa using h

theorem mem_conflictAssignments_intro {m : List (String × CommandRecord)}
    {ps : List String} {excl : Option String} {p : String}
    (hall : ∀ q ∈ ps, pyStrip q ≠ "") (hp : p ∈ ps)
    {e : String × CommandRecord} (he : e ∈ m)
    (hskip : skipExcluded excl e.1 = false)
    {ep : String} (hep : ep ∈ effPhrases e.2) (hepb : pyStrip ep ≠ "")
    (heq : phraseNorm ep = phraseNorm p) :
    (pyStrip p, e.1) ∈ conflictAssignments m ps excl := by
  unfold conflictAssignments
  refine List.mem_flatMap.mpr ⟨e, he, ?_⟩
  rw [hskip]
  simp only [Bool.false_eq_true, if_false]
  refine List.mem_flatMap.mpr ⟨ep, hep, ?_⟩
  rw [if_neg (by simpa using hepb)]
  refine List.mem_filterMap.mpr ⟨(p, phraseNorm p), ?_, ?_⟩
  · rw [zip_normalized_eq_map hall]
    exact List.mem_map.mpr ⟨p, hp, rfl⟩
  · rw [if_pos (by simp [phraseNorm] at heq ⊢; rw [← heq])]

theorem mem_conflictAssignments_elim {m : List (String × CommandRecord)}
    {ps : List String} {excl : Option String} {a : String × String}
    (h : a ∈ conflictAssignments m ps excl) :
    ∃ e ∈ m, e.1 = a.2 ∧ skipExcluded excl e.1 = false ∧
      ∃ ep ∈ effPhrases e.2, pyStrip ep ≠ "" ∧
        ∃ np ∈ ps.zip (normalizedNonEmpty ps),
          np.2 = phraseNorm ep ∧ a.1 = pyStrip np.1 := by
  unfold conflictAssignments at h
  rcases List.mem_flatMap.mp h with ⟨e, he, h1⟩
  by_cases hskip : skipExcluded excl e.1 = true
  · rw [if_pos hskip] at h1
    cases h1
  · rw [if_neg hskip] at h1
    rcases List.mem_flatMap.mp h1 with ⟨ep, hep, h2⟩
    by_cases hblank : pyStrip ep = ""
    · rw [if_pos (by simpa using hblank)] at h2
      cases h2
    · rw [if_neg (by simpa using hblank)] at h2
      rcases List.mem_filterMap.mp h2 with ⟨np, hnp, h3⟩
      by_cases hcond : (np.2 == pyLower (pyStrip ep)) = true
      · rw [if_pos hcond] at h3
        have ha : a = (pyStrip np.1, e.1) := by
          injection h3 with h3'
          exact h3'.symm
        subst ha
        exact ⟨e, he, rfl, by simpa using hskip, ep, hep, hblank, np, hnp,
          by simpa [phraseNorm] using hcond, rfl⟩
      · rw [if_neg hcond] at h3
        cases h3

theorem find_conflict_lookup {m : List (String × CommandRecord)}
    {ps : List String} {excl : Option String} {p : String}
    (hall : ∀ q ∈ ps, pyStrip q ≠ "") (hp : p ∈ ps)
    {e : String × CommandRecord} (he : e ∈ m)
    (hskip : skipExcluded excl e.1 = false)
    {ep : String} (hep : ep ∈ effPhrases e.2) (hepb : pyStrip ep ≠ "")
    (heq : phraseNorm ep = phraseNorm p) :
    find_phrase_conflicts m ps excl ≠ [] ∧
      ∃ owner, dictGet (find_phrase_conflicts m ps excl) (pyStrip p) = some owner ∧
        ∃ rw, (owner, rw) ∈ m ∧ ∃ ep2 ∈ effPhrases rw,
          pyStrip ep2 ≠ "" ∧ phraseNorm ep2 = phraseNorm p := by
  have hmem := mem_conflictAssignments_intro hall hp he hskip hep hepb heq
  have hnn : (normalizedNonEmpty ps).isEmpty = false := by
    rw [Bool.eq_false_iff]
    intro hempty
    rw [List.isEmpty_iff] at hempty
    have : phraseNorm p ∈ normalizedNonEmpty ps :=
      mem_normalizedNonEmpty.mpr ⟨p, hp, hall p hp, rfl⟩
    rw [hempty] at this
    cases this
  have hfind : find_phrase_conflicts m ps excl =
      (conflictAssignments m ps excl).foldl (fun conflicts a => dictSet conflicts a.1 a.2) [] := by
    unfold find_phrase_conflicts
    rw [hnn]
    simp
  constructor
  · rw [hfind, Ne, foldl_dictSet_eq_nil_iff]
    intro hnil
    rw [hnil] at hmem
    cases hmem
  · have hsome : (dictGet (find_phrase_conflicts m ps excl) (pyStrip p)).isSome = true := by
      rw [hfind]
      refine dictGet_foldl_dictSet_isSome _ _ _ (Or.inl ?_)
      exact List.mem_map.mpr ⟨(pyStrip p, e.1), hmem, rfl⟩
    rcases Option.isSome_iff_exists.mp hsome with ⟨owner, howner⟩
    refine ⟨owner, howner, ?_⟩
    rw [hfind] at howner
    rcases dictGet_foldl_dictSet_mem _ _ _ _ howner with hprov | hprov
    · rcases mem_conflictAssignments_elim hprov with
        ⟨e', he', hek, -, ep2, hep2, hep2b, np, hnp, hnp2, hkey⟩
      refine ⟨e'.2, ?_, ep2, hep2, hep2b, ?_⟩
      · have hek' : e'.1 = owner := hek
        rw [← hek']
        simpa using he'
      · have hnpmap := zip_normalized_eq_map hall
        rw [hnpmap] at hnp
        rcases List.mem_map.mp hnp with ⟨q, hq, hqeq⟩
        have h1 : np.1 = q := by rw [← hqeq]
        have h2 : np.2 = phraseNorm q := by rw [← hqeq]
        have h3 : phraseNorm ep2 = phraseNorm q := by rw [← hnp2, h2]
        have h4 : pyStrip q = pyStrip p := by
          have : (pyStrip p, owner).1 = pyStrip np.1 := hkey
          simp only [h1] at this
          exact this.symm
        rw [h3]
        exact phraseNorm_eq_of_strip_eq h4
    · cases hprov

theorem add_command_conflict_fail {m : List (String × CommandRecord)}
    {d : String} {r : CommandRecord} (cf : List (String × String)) (err : String)
    (hv : is_valid_command_data r = true)
    (hne : find_phrase_conflicts m (effPhrases r) none ≠ []) :
    add_command ⟨m, cf, err⟩ d r =
      (false, ⟨m, find_phrase_conflicts m (effPhrases r) none,
        addConflictMessage (find_phrase_conflicts m (effPhrases r) none)⟩) := by
  unfold add_command
  simp only [hv, Bool.not_true, Bool.false_eq_true, if_false]
  have he : (find_phrase_conflicts (ConfigState.mk m cf err).commands
      (effPhrases r) none).isEmpty = false := by
    simpa [List.isEmpty_iff] using hne
  simp only [he, Bool.not_false, if_true]

/-! ### The resolver: sorting -/

theorem matchLe_inner_trans {l1 l2 l3 : Nat} {s1 s2 s3 : String}
    (h1 : (if l1 != l2 then decide (l2 < l1) else decide (s1 ≤ s2)) = true)
    (h2 : (if l2 != l3 then decide (l3 < l2) else decide (s2 ≤ s3)) = true) :
    (if l1 != l3 then decide (l3 < l1) else decide (s1 ≤ s3)) = true := by
  by_cases e12 : l1 = l2
  · by_cases e23 : l2 = l3
    · subst e12
      subst e23
      simp only [bne_self_eq_false, Bool.false_eq_true, if_false] at h1 h2 ⊢
      rw [decide_eq_true_iff] at h1 h2 ⊢
      exact le_trans h1 h2
    · subst e12
      rw [if_pos (by simpa using e23)] at h2
      rw [if_pos (by simpa using e23)]
      exact h2
  · by_cases e23 : l2 = l3
    · subst e23
      rw [if_pos (by simpa using e12)] at h1
      rw [if_pos (by simpa using e12)]
      exact h1
    · rw [if_pos (by simpa using e12)] at h1
      rw [if_pos (by simpa using e23)] at h2
      rw [decide_eq_true_iff] at h1 h2
      have h13 : l3 < l1 := lt_trans h2 h1
      rw [if_pos (by simpa using Nat.ne_of_gt h13)]
      exact decide_eq_true h13

theorem matchLe_inner_total (l1 l2 : Nat) (s1 s2 : String) :
    (if l1 != l2 then decide (l2 < l1) else decide (s1 ≤ s2)) = true ∨
      (if l2 != l1 then decide (l1 < l2) else decide (s2 ≤ s1)) = true := by
  by_cases e : l1 = l2
  · subst e
    simp only [bne_self_eq_false, Bool.false_eq_true, if_false]
    rcases le_total s1 s2 with h | h
    · exact Or.inl (decide_eq_true h)
    · exact Or.inr (decide_eq_true h)
  · rw [if_pos (by simpa using e), if_pos (by simpa using Ne.symm e)]
    rcases Nat.lt_or_ge l2 l1 with h | h
    · exact Or.inl (decide_eq_true h)
    · have hlt : l1 < l2 := lt_of_le_of_ne h e
      exact Or.inr (decide_eq_true hlt)

theorem matchLe_trans {a b c : MatchInfo} (h1 : matchLe a b = true)
    (h2 : matchLe b c = true) : matchLe a c = true := by
  unfold matchLe at h1 h2 ⊢
  by_cases wab : a.is_word_boundary = b.is_word_boundary
  · rw [wab] at h1
    simp only [bne_self_eq_false, Bool.false_eq_true, if_false] at h1
    by_cases wbc : b.is_word_boundary = c.is_word_boundary
    · rw [wbc] at h2
      simp only [bne_self_eq_false, Bool.false_eq_true, if_false] at h2
      have wac : a.is_word_boundary = c.is_word_boundary := wab.trans wbc
      rw [wac]
      simp only [bne_self_eq_false, Bool.false_eq_true, if_false]
      exact matchLe_inner_trans h1 h2
    · rw [if_pos (by simpa using wbc)] at h2
      have hab : a.is_word_boundary = true := wab.trans h2
      have hc : c.is_word_boundary = false := by
        cases hcb : c.is_word_boundary
        · rfl
        · exact absurd (h2.trans hcb.symm) wbc
      rw [if_pos (by rw [hab, hc]; rfl)]
      exact hab
  · rw [if_pos (by simpa using wab)] at h1
    have hb : b.is_word_boundary = false := by
      cases hbb : b.is_word_boundary
      · rfl
      · exact absurd (h1.trans hbb.symm) wab
    by_cases wbc : b.is_word_boundary = c.is_word_boundary
    · have hc : c.is_word_boundary = false := by
        rw [← wbc]
        exact hb
      rw [if_pos (by rw [h1, hc]; rfl)]
      exact h1
    · rw [if_pos (by simpa using wbc)] at h2
      rw [hb] at h2
      cases h2

theorem matchLe_total (a b : MatchInfo) :
    matchLe a b = true ∨ matchLe b a = true := by
  unfold matchLe
  by_cases w : a.is_word_boundary = b.is_word_boundary
  · rw [w]
    simp only [bne_self_eq_false, Bool.false_eq_true, if_false]
    exact matchLe_inner_total _ _ _ _
  · rw [if_pos (by simpa using w), if_pos (by simpa using Ne.symm w)]
    cases ha : a.is_word_boundary
    · cases hb : b.is_word_boundary
      · exact absurd (ha.trans hb.symm) w
      · exact Or.inr rfl
    · exact Or.inl rfl

theorem matchLe_refl (a : MatchInfo) : matchLe a a = true := by
  rcases matchLe_total a a with h | h <;> exact h

theorem insertSorted_perm (le : α → α → Bool) (x : α) (l : List α) :
    List.Perm (insertSorted le x l) (x :: l) := by
  induction l with
  | nil => exact List.Perm.refl _
  | cons y ys ih =>
    unfold insertSorted
    by_cases h : le x y = true
    · rw [if_pos h]
    · rw [if_neg h]
      exact List.Perm.trans (List.Perm.cons y ih) (List.Perm.swap x y ys)

theorem stableSort_perm (le : α → α → Bool) (l : List α) :
    List.Perm (stableSort le l) l := by
  induction l with
  | nil => exact List.Perm.refl _
  | cons x xs ih =>
    exact List.Perm.trans (insertSorted_perm le x _) (List.Perm.cons x ih)

theorem stableSort_head_min (le : α → α → Bool)
    (htrans : ∀ a b c, le a b = true → le b c = true → le a c = true)
    (htotal : ∀ a b, le a b = true ∨ le b a = true) :
    ∀ (l : List α) (x : α) (t : List α), stableSort le l = x :: t →
      ∀ z ∈ l, le x z = true := by
  have hrefl : ∀ a, le a a = true := fun a => by
    rcases htotal a a with h | h <;> exact h
  intro l
  induction l with
  | nil =>
    intro x t h
    cases h
  | cons a as ih =>
    intro x t h z hz
    cases hs : stableSort le as with
    | nil =>
      have has : as = [] := by
        have hperm := stableSort_perm le as
        rw [hs] at hperm
        exact (List.Perm.nil_eq hperm).symm
      unfold stableSort at h
      rw [hs] at h
      unfold insertSorted at h
      have hx : x = a := by
        injection h with h1 _
        exact h1.symm
      rw [hx]
      rcases List.mem_cons.mp hz with rfl | hz'
      · exact hrefl z
      · rw [has] at hz'
        cases hz'
    | cons y ys =>
      unfold stableSort at h
      rw [hs] at h
      unfold insertSorted at h
      by_cases hay : le a y = true
      · rw [if_pos hay] at h
        have hx : x = a := by
          injection h with h1 _
          exact h1.symm
        rw [hx]
        rcases List.mem_cons.mp hz with rfl | hz'
        · exact hrefl z
        · exact htrans a y z hay (ih y ys hs z hz')
      · rw [if_neg hay] at h
        have hx : x = y := by
          injection h with h1 _
          exact h1.symm
        rw [hx]
        have hya : le y a = true := by
          rcases htotal a y with hh | hh
          · exact absurd hh hay
          · exact hh
        rcases List.mem_cons.mp hz with rfl | hz'
        · exact hya
        · exact ih y ys hs z hz'

theorem stableSort_eq_nil_iff (le : α → α → Bool) (l : List α) :
    stableSort le l = [] ↔ l = [] := by
  constructor
  · intro h
    have hperm := stableSort_perm le l
    rw [h] at hperm
    exact (List.Perm.nil_eq hperm).symm
  · intro h
    rw [h]
    rfl

theorem mem_of_mem_stableSort {le : α → α → Bool} {l : List α} {x : α}
    (h : x ∈ stableSort le l) : x ∈ l :=
  (stableSort_perm le l).mem_iff.mp h

/-- The characterization of a successful resolution: when the candidate list is
non-empty the result is a candidate that is `matchLe`-minimal among all
candidates, and the remainder is the stripped result of deleting its pattern
from the original text. -/
theorem parse_match_spec (commands : List (String × CommandRecord))
    (voice_text : String)
    (h : collectMatches commands (pyStrip (pyLower voice_text)) ≠ []) :
    ∃ best ∈ collectMatches commands (pyStrip (pyLower voice_text)),
      parse_voice_command commands voice_text =
        (some best.description, best.pattern,
          pyStrip (pyReplaceWithEmpty voice_text best.pattern)) ∧
      ∀ mi ∈ collectMatches commands (pyStrip (pyLower voice_text)),
        matchLe best mi = true := by
  cases hs : stableSort matchLe (collectMatches commands (pyStrip (pyLower voice_text))) with
  | nil => exact absurd ((stableSort_eq_nil_iff _ _).mp hs) h
  | cons b t =>
    refine ⟨b, ?_, ?_, ?_⟩
    · exact mem_of_mem_stableSort (hs ▸ List.mem_cons_self b t)
    · unfold parse_voice_command
      rw [hs]
    · intro mi hmi
      exact stableSort_head_min matchLe (fun x y z => matchLe_trans)
        matchLe_total _ b t hs mi hmi

/-! ### Substring containment facts -/

theorem charsStartWith_append {p l : List Char} (u : List Char)
    (h : charsStartWith p l = true) : charsStartWith p (l ++ u) = true := by
  induction p generalizing l with
  | nil => rfl
  | cons a as ih =>
    cases l with
    | nil => cases h
    | cons b bs =>
      unfold charsStartWith at h ⊢
      simp only [Bool.and_eq_true] at h
      rcases h with ⟨h1, h2⟩
      rw [List.cons_append]
      simp only [Bool.and_eq_true]
      exact ⟨h1, ih h2⟩

theorem charsContain_of_startsWith {p l : List Char}
    (h : charsStartWith p l = true) : charsContain p l = true := by
  cases l with
  | nil => exact h
  | cons c cs =>
    unfold charsContain
    rw [h]
    rfl

theorem charsContain_cons {p l : List Char} (c : Char)
    (h : charsContain p l = true) : charsContain p (c :: l) = true := by
  unfold charsContain
  rw [h]
  simp

theorem charsContain_append_left {p l : List Char} (u : List Char)
    (h : charsContain p l = true) : charsContain p (u ++ l) = true := by
  induction u with
  | nil => exact h
  | cons c cs ih => exact charsContain_cons c ih

theorem charsContain_append_right {p l : List Char} (u : List Char)
    (h : charsContain p l = true) : charsContain p (l ++ u) = true := by
  induction l with
  | nil =>
    cases p with
    | nil =>
      cases u with
      | nil => rfl
      | cons x xs =>
        exact charsContain_of_startsWith rfl
    | cons a as => cases h
  | cons c cs ih =>
    unfold charsContain at h
    simp only [Bool.or_eq_true] at h
    rcases h with h1 | h1
    · rw [List.cons_append]
      exact charsContain_of_startsWith (charsStartWith_append u h1)
    · rw [List.cons_append]
      exact charsContain_cons c (ih h1)

theorem stripChars_decomposition (l : List Char) :
    ∃ u v, l = u ++ (stripChars l ++ v) := by
  refine ⟨l.takeWhile pyIsSpace,
    (((l.dropWhile pyIsSpace).reverse.takeWhile pyIsSpace)).reverse, ?_⟩
  unfold stripChars
  have h1 : l = l.takeWhile pyIsSpace ++ l.dropWhile pyIsSpace :=
    (List.takeWhile_append_dropWhile _ _).symm
  have h2 : (l.dropWhile pyIsSpace).reverse =
      (l.dropWhile pyIsSpace).reverse.takeWhile pyIsSpace ++
        (l.dropWhile pyIsSpace).reverse.dropWhile pyIsSpace :=
    (List.takeWhile_append_dropWhile _ _).symm
  have h3 : l.dropWhile pyIsSpace =
      ((l.dropWhile pyIsSpace).reverse.dropWhile pyIsSpace).reverse ++
        ((l.dropWhile pyIsSpace).reverse.takeWhile pyIsSpace).reverse := by
    have := congrArg List.reverse h2
    rw [List.reverse_reverse, List.reverse_append] at this
    exact this
  calc l = l.takeWhile pyIsSpace ++ l.dropWhile pyIsSpace := h1
    _ = l.takeWhile pyIsSpace ++
        (((l.dropWhile pyIsSpace).reverse.dropWhile pyIsSpace).reverse ++
          ((l.dropWhile pyIsSpace).reverse.takeWhile pyIsSpace).reverse) := by
        rw [← h3]

theorem charsContain_of_strip {p l : List Char}
    (h : charsContain p (stripChars l) = true) : charsContain p l = true := by
  rcases stripChars_decomposition l with ⟨u, v, hl⟩
  rw [hl]
  exact charsContain_append_left u (charsContain_append_right v h)

theorem collectMatches_eq_nil {commands : List (String × CommandRecord)}
    {text : String}
    (h : ∀ e ∈ commands, ∀ p ∈ effPhrases e.2,
      charsContain (pyLower p).data (pyLower text).data = false) :
    collectMatches commands (pyStrip (pyLower text)) = [] := by
  unfold collectMatches
  rw [List.flatMap_eq_nil_iff]
  intro e he
  rw [List.filterMap_eq_nil_iff]
  intro p hp
  have hc : pyContains (pyStrip (pyLower text)) (pyLower p) = false := by
    rw [Bool.eq_false_iff]
    intro hcont
    have hfull : charsContain (pyLower p).data (pyLower text).data = true :=
      charsContain_of_strip hcont
    rw [h e he p hp] at hfull
    cases hfull
  simp [hc]

theorem parse_of_collect_nil (commands : List (String × CommandRecord))
    (voice_text : String)
    (hnil : collectMatches commands (pyStrip (pyLower voice_text)) = []) :
    parse_voice_command commands voice_text = (none, "", voice_text) := by
  unfold parse_voice_command
  rw [hnil]
  rfl

/-! ### Heap lemmas for the snapshot claims -/

theorem le_foldr_max {l : List Nat} {x : Nat} (h : x ∈ l) :
    x ≤ l.foldr max 0 := by
  induction l with
  | nil => cases h
  | cons a as ih =>
    simp only [List.foldr_cons]
    rcases List.mem_cons.mp h with rfl | h'
    · exact le_max_left _ _
    · exact le_trans (ih h') (le_max_right a _)

theorem dictGet_mem {m : List (String × α)} {k : String} {v : α}
    (h : dictGet m k = some v) : (k, v) ∈ m := by
  unfold dictGet at h
  rcases Option.map_eq_some'.mp h with ⟨e, he, hv⟩
  have hk : e.1 = k := by simpa using List.find?_some he
  have hmem := List.mem_of_find?_eq_some he
  have heq : (k, v) = e := by
    rw [← hk, ← hv]
  rw [heq]
  exact hmem

theorem getRec_ne_fresh {σ : Heap} {r : Nat} {rv : RecObj}
    (h : σ.getRec r = some rv) : r ≠ σ.freshRecRef := by
  unfold Heap.getRec at h
  rcases Option.map_eq_some'.mp h with ⟨e, he, -⟩
  have hk : e.1 = r := by simpa using List.find?_some he
  have hmem := List.mem_of_find?_eq_some he
  have hle : r ≤ (σ.recs.map (fun e => e.1)).foldr max 0 := by
    rw [← hk]
    exact le_foldr_max (List.mem_map.mpr ⟨e, hmem, rfl⟩)
  unfold Heap.freshRecRef
  omega

theorem getRec_setRecAction_ne (σ : Heap) (r r' : Nat) (a : String)
    (h : r' ≠ r) : (σ.setRecAction r a).getRec r' = σ.getRec r' := by
  unfold Heap.setRecAction Heap.getRec
  simp only
  induction σ.recs with
  | nil => rfl
  | cons e es ih =>
    simp only [List.map_cons]
    by_cases he' : e.1 = r'
    · have hr : (e.1 == r) = false := by
        simp only [beq_eq_false_iff_ne, ne_eq]
        rw [he']
        exact fun hh => h hh
      rw [hr]
      simp only [Bool.false_eq_true, if_false]
      rw [List.find?_cons_of_pos _ (by simpa using he'),
        List.find?_cons_of_pos _ (by simpa using he')]
    · by_cases hr : (e.1 == r) = true
      · rw [if_pos hr]
        rw [List.find?_cons_of_neg _ (by simpa using he'),
          List.find?_cons_of_neg _ (by simpa using he')]
        exact ih
      · rw [if_neg hr]
        rw [List.find?_cons_of_neg _ (by simpa using he'),
          List.find?_cons_of_neg _ (by simpa using he')]
        exact ih

theorem getRec_append_of_some {σ : Heap} {r : Nat} {rv : RecObj}
    (h : σ.getRec r = some rv) (x : Nat × RecObj) :
    (Heap.mk (σ.recs ++ [x]) σ.phraseLists).getRec r = some rv := by
  unfold Heap.getRec at h ⊢
  simp only [List.find?_append]
  rcases Option.map_eq_some'.mp h with ⟨e, he, hv⟩
  rw [he]
  simp [hv]

/-! ### The claims -/

/-- C1 (amended): every command map reachable from a conflict-free map by
`add_command`, `update_command` and `remove_command` calls satisfies the
uniqueness invariant restricted to non-blank phrases — no two distinct
command descriptions own non-blank phrases that are equal after trimming and
lower-casing; and `_validate_all_phrase_conflicts` returns an empty conflict
map for every such state in which no stored description is the empty string.
Two carve-outs from the claim as stated, both exhibited by the
counterexample: blank (whitespace-only) phrases are filtered out of every
conflict check, so two distinct commands can both own the phrase `" "` in a
reachable state even though those phrases are equal after trimming and
lower-casing; and the claimed equivalence with an empty conflict map fails
for empty descriptions, because the source's exclusion guard treats an empty
`exclude_description` as falsy and then reports a command as conflicting with
itself. -/
theorem claim_C1 {m₀ m : List (String × CommandRecord)}
    (h0 : validate_all_conflicts m₀ = []) (hr : ReachableMap m₀ m) :
    PairwiseDistinctPhrases m ∧
      ((∀ e ∈ m, e.1 ≠ "") → validate_all_conflicts m = []) := by
  have hpd := reachable_pairwise_distinct
    (PairwiseDistinct_of_StoreConsistent ((validate_all_eq_nil_iff m₀).mp h0)) hr
  exact ⟨hpd, fun hk =>
    (validate_all_eq_nil_iff m).mpr (StoreConsistent_of_PairwiseDistinct hpd hk)⟩

/-- Witness for C1: one `add_command` step from the empty map. -/
theorem claim_C1_witness :
    PairwiseDistinctPhrases (addStep [] "A" recGo) ∧
      ((∀ e ∈ addStep [] "A" recGo, e.1 ≠ "") →
        validate_all_conflicts (addStep [] "A" recGo) = []) :=
  claim_C1 (show validate_all_conflicts [] = [] from rfl)
    (ReachableMap.add (ReachableMap.refl []) "A" recGo)

/-- Counterexample to C1 as stated.  First part: from the empty
(conflict-free) map, the single call `add_command("", recGo)` succeeds in
mutating the map, yet `_validate_all_phrase_conflicts` then reports the
command as conflicting with itself.  Second part: from the empty map, two
`add_command` calls storing `Phrases = [" "]` under the distinct descriptions
`W` and `V` both return success, leaving two distinct commands owning phrases
that are equal after trimming and lower-casing (both strip to the empty
string), while `_validate_all_phrase_conflicts` stays empty — so the
unrestricted uniqueness invariant of the claim fails on blank phrases. -/
theorem claim_C1_counterexample :
    (validate_all_conflicts [] = [] ∧
      addStep [] "" recGo = [("", recGo)] ∧
      validate_all_conflicts (addStep [] "" recGo) = [("go", "")]) ∧
    ((add_command ⟨[], [], ""⟩ "W" recWhitespace).1 = true ∧
      (add_command (add_command ⟨[], [], ""⟩ "W" recWhitespace).2
        "V" recWhitespace).1 = true ∧
      (add_command (add_command ⟨[], [], ""⟩ "W" recWhitespace).2
        "V" recWhitespace).2.commands =
          [("W", recWhitespace), ("V", recWhitespace)] ∧
      ("W" : String) ≠ "V" ∧
      " " ∈ effPhrases recWhitespace ∧
      pyStrip " " = "" ∧
      phraseNorm " " = phraseNorm " " ∧
      validate_all_conflicts [("W", recWhitespace), ("V", recWhitespace)] = []) := by
  decide

/-- C2 (amended): when a structurally valid record none of whose phrases is
blank contains a phrase `p` that, after trimming and lower-casing, equals a
phrase owned by another existing command, `add_command` returns failure, the
in-memory command map is left completely unchanged, and the structured
conflict map associates the trimmed phrase with a command that owns a
norm-equal phrase.  (For records with blank phrase entries the source's
`zip(phrases, normalized_new)` misaligns the raw keys, and for structurally
invalid records the conflict map is cleared instead; see the
counterexample.) -/
theorem claim_C2 (m : List (String × CommandRecord))
    (cf : List (String × String)) (err : String) (d : String)
    {r : CommandRecord} (hv : is_valid_command_data r = true)
    (hall : ∀ q ∈ effPhrases r, pyStrip q ≠ "")
    {p : String} (hp : p ∈ effPhrases r)
    {e : String × CommandRecord} (he : e ∈ m) (hed : e.1 ≠ d)
    {ep : String} (hep : ep ∈ effPhrases e.2) (hepb : pyStrip ep ≠ "")
    (heq : phraseNorm ep = phraseNorm p) :
    (add_command ⟨m, cf, err⟩ d r).1 = false ∧
    (add_command ⟨m, cf, err⟩ d r).2.commands = m ∧
    ∃ owner, dictGet ((add_command ⟨m, cf, err⟩ d r).2.lastConflicts)
        (pyStrip p) = some owner ∧
      ∃ rw, (owner, rw) ∈ m ∧ ∃ ep2 ∈ effPhrases rw,
        pyStrip ep2 ≠ "" ∧ phraseNorm ep2 = phraseNorm p := by
  rcases find_conflict_lookup hall hp he
      (show skipExcluded none e.1 = false from rfl) hep hepb heq with ⟨hne, hlook⟩
  rw [add_command_conflict_fail cf err hv hne]
  exact ⟨rfl, rfl, hlook⟩

/-- Witness for C2: the specification's own example, `Launch Notepad` colliding
with `Open Notepad` on the phrase `notepad`. -/
theorem claim_C2_witness :
    (add_command ⟨[("Open Notepad", recNotepad)], [], ""⟩ "Launch Notepad"
        recLaunch).1 = false ∧
    (add_command ⟨[("Open Notepad", recNotepad)], [], ""⟩ "Launch Notepad"
        recLaunch).2.commands = [("Open Notepad", recNotepad)] ∧
    ∃ owner, dictGet ((add_command ⟨[("Open Notepad", recNotepad)], [], ""⟩
        "Launch Notepad" recLaunch).2.lastConflicts) (pyStrip "notepad") =
          some owner ∧
      ∃ rw, (owner, rw) ∈ [("Open Notepad", recNotepad)] ∧
        ∃ ep2 ∈ effPhrases rw, pyStrip ep2 ≠ "" ∧
          phraseNorm ep2 = phraseNorm "notepad" :=
  claim_C2 [("Open Notepad", recNotepad)] [] "" "Launch Notepad"
    (by decide) (by decide) (by decide)
    (List.mem_singleton.mpr rfl) (by decide) (by decide) (by decide) rfl

/-- Counterexample to C2 as stated: a structurally invalid record containing
the colliding phrase fails with an empty conflict map, and a valid record
whose phrase list starts with a blank entry fails with the conflict keyed by
the empty string rather than by `notepad`. -/
theorem claim_C2_counterexample :
    ((add_command ⟨[("Open Notepad", recNotepad)], [], ""⟩ "Launch Notepad"
        recBadAction).1 = false ∧
      (add_command ⟨[("Open Notepad", recNotepad)], [], ""⟩ "Launch Notepad"
        recBadAction).2.lastConflicts = []) ∧
    ((add_command ⟨[("Open Notepad", recNotepad)], [], ""⟩ "Launch Notepad"
        recBlankNotepad).1 = false ∧
      (add_command ⟨[("Open Notepad", recNotepad)], [], ""⟩ "Launch Notepad"
        recBlankNotepad).2.lastConflicts = [("", "Open Notepad")] ∧
      dictGet ((add_command ⟨[("Open Notepad", recNotepad)], [], ""⟩
        "Launch Notepad" recBlankNotepad).2.lastConflicts) "notepad" = none) := by
  decide

/-- C3 (amended): structural validation accepts exactly the three action
values `browser`, `command` and `keys`; the fourth value `internal` that the
executor supports fails validation (internal commands are treated as
read-only system entries and cannot be added or updated). -/
theorem claim_C3 :
    (∀ a : String, is_valid_command_data (recWithAction a) =
      (a == "browser" || a == "command" || a == "keys")) ∧
    is_valid_command_data (recWithAction "internal") = false := by
  constructor
  · intro a
    simp [is_valid_command_data, recWithAction, pyStrip, stripChars, pyIsSpace]
  · decide

/-- Counterexample to C3 as stated: a record with `Action = "internal"` and
otherwise valid fields fails validation, so `add_command` rejects it and
leaves the map unchanged. -/
theorem claim_C3_counterexample :
    is_valid_command_data (recWithAction "internal") = false ∧
    (add_command ⟨[], [], ""⟩ "Show Phrases" (recWithAction "internal")).1 = false ∧
    (add_command ⟨[], [], ""⟩ "Show Phrases" (recWithAction "internal")).2.commands = [] := by
  decide

/-- C4 (confirmed): whenever at least one phrase matches (the candidate list
built by `parse_voice_command` is non-empty), resolution returns the
description and pattern of a candidate that is minimal under the order
`matchLe`: word-boundary matches before non-word-boundary matches, then
longer phrase length first, then description in ascending lexicographic
order. -/
theorem claim_C4 (commands : List (String × CommandRecord)) (voice_text : String)
    (h : collectMatches commands (pyStrip (pyLower voice_text)) ≠ []) :
    ∃ best ∈ collectMatches commands (pyStrip (pyLower voice_text)),
      (parse_voice_command commands voice_text).1 = some best.description ∧
      (parse_voice_command commands voice_text).2.1 = best.pattern ∧
      ∀ mi ∈ collectMatches commands (pyStrip (pyLower voice_text)),
        matchLe best mi = true := by
  rcases parse_match_spec commands voice_text h with ⟨best, hmem, heq, hmin⟩
  exact ⟨best, hmem, by rw [heq], by rw [heq], hmin⟩

/-- Witness for C4: the tie-break example, where `open browser` (word
boundary, longer) beats `browser`. -/
theorem claim_C4_witness :
    collectMatches [("A", recOpenBrowser), ("B", recBrowser)]
        (pyStrip (pyLower "please open browser now")) ≠ [] ∧
      ∃ best ∈ collectMatches [("A", recOpenBrowser), ("B", recBrowser)]
          (pyStrip (pyLower "please open browser now")),
        (parse_voice_command [("A", recOpenBrowser), ("B", recBrowser)]
            "please open browser now").1 = some best.description ∧
        (parse_voice_command [("A", recOpenBrowser), ("B", recBrowser)]
            "please open browser now").2.1 = best.pattern ∧
        ∀ mi ∈ collectMatches [("A", recOpenBrowser), ("B", recBrowser)]
            (pyStrip (pyLower "please open browser now")),
          matchLe best mi = true :=
  ⟨by decide, claim_C4 _ _ (by decide)⟩

/-- C5 (amended): when a match is found, the remainder is the original-cased
input text with every left-to-right occurrence of the winning pattern removed
(Python `str.replace` removes all occurrences, not just the first) and the
result stripped; interior whitespace is not collapsed, so the
specification's example yields `"please  now"` with a doubled space. -/
theorem claim_C5 (commands : List (String × CommandRecord)) (voice_text : String)
    (h : collectMatches commands (pyStrip (pyLower voice_text)) ≠ []) :
    (parse_voice_command commands voice_text).2.2 =
      pyStrip (pyReplaceWithEmpty voice_text
        (parse_voice_command commands voice_text).2.1) := by
  rcases parse_match_spec commands voice_text h with ⟨best, -, heq, -⟩
  rw [heq]

/-- Witness for C5 at the specification's example input. -/
theorem claim_C5_witness :
    collectMatches [("A", recOpenBrowser), ("B", recBrowser)]
        (pyStrip (pyLower "please open browser now")) ≠ [] ∧
      (parse_voice_command [("A", recOpenBrowser), ("B", recBrowser)]
          "please open browser now").2.2 =
        pyStrip (pyReplaceWithEmpty "please open browser now"
          (parse_voice_command [("A", recOpenBrowser), ("B", recBrowser)]
            "please open browser now").2.1) :=
  ⟨by decide, claim_C5 _ _ (by decide)⟩

/-- Counterexample to C5 as stated: the specification's example resolves to A
with remainder `"please  now"` (interior double space), not `"please now"`;
and with only command B, the input `"browser and browser"` leaves remainder
`"and"`, showing that every occurrence is removed, not just the first (which
would leave `"and browser"`). -/
theorem claim_C5_counterexample :
    parse_voice_command [("A", recOpenBrowser), ("B", recBrowser)]
        "please open browser now" = (some "A", "open browser", "please  now") ∧
    ("please  now" : String) ≠ "please now" ∧
    parse_voice_command [("B", recBrowser)] "browser and browser" =
      (some "B", "browser", "and") ∧
    ("and" : String) ≠ "and browser" := by
  decide

/-- C6 (confirmed): when no phrase of any command occurs as a case-insensitive
substring of the input text, resolution returns no description, an empty
matched phrase, and the full original input text unchanged. -/
theorem claim_C6 (commands : List (String × CommandRecord)) (voice_text : String)
    (h : ∀ e ∈ commands, ∀ p ∈ effPhrases e.2,
      charsContain (pyLower p).data (pyLower voice_text).data = false) :
    parse_voice_command commands voice_text = (none, "", voice_text) :=
  parse_of_collect_nil commands voice_text (collectMatches_eq_nil h)

/-- Witness for C6: `hello world` matches no phrase of the `Open Notepad`
command. -/
theorem claim_C6_witness :
    (∀ e ∈ [("Open Notepad", recNotepad)], ∀ p ∈ effPhrases e.2,
      charsContain (pyLower p).data (pyLower "hello world").data = false) ∧
    parse_voice_command [("Open Notepad", recNotepad)] "hello world" =
      (none, "", "hello world") :=
  ⟨by decide, claim_C6 _ _ (by decide)⟩

/-- C7 (amended): self-collision is excluded on the `update_command` path for
commands with a non-empty description: updating command `d` with a valid
record that may repeat `d`'s own current phrases succeeds, provided the store
is conflict-free and the record collides with no other command.  On the
`add_command` path the command's own current entry is not excluded, so
re-adding a record that repeats its own phrases fails; and an empty
description is never excluded because the source's guard treats it as falsy
(see the counterexample). -/
theorem claim_C7 {m : List (String × CommandRecord)}
    (cf : List (String × String)) (err : String) {d : String}
    {rOld r : CommandRecord}
    (hva : validate_all_conflicts m = [])
    (hget : dictGet m d = some rOld) (hd : d ≠ "")
    {p : String} (hpOld : p ∈ effPhrases rOld)
    (hv : is_valid_command_data r = true) (hp : p ∈ effPhrases r)
    (hdisj : ∀ e ∈ m, e.1 ≠ d → ∀ q ∈ nbNorms r, q ∉ nbNorms e.2) :
    update_command ⟨m, cf, err⟩ d r = (true, ⟨dictSet m d r, cf, err⟩) := by
  have hhas : dictHas m d = true := dictHas_of_dictGet_some hget
  have hfind : find_phrase_conflicts m (effPhrases r) (some d) = [] := by
    rw [find_eq_nil_iff]
    intro e he hskip ep hep hblank q hq heq
    rcases skipExcluded_some_eq_false_iff.mp hskip with hc | hc
    · exact absurd hc hd
    · exact hdisj e he hc q hq (mem_normalizedNonEmpty.mpr ⟨ep, hep, hblank, heq⟩)
  have hsc := (validate_all_eq_nil_iff m).mp hva
  have hva' : validate_all_conflicts (dictSet m d r) = [] := by
    rw [validate_all_eq_nil_iff]
    exact StoreConsistent_dictSet hsc hd hdisj
  exact update_command_success cf err hhas hv hfind hva'

/-- Witness for C7: updating `X`, which owns `go`, with a record that still
contains `go` succeeds. -/
theorem claim_C7_witness :
    update_command ⟨[("X", recGo), ("Other", recPhraseY)], [], ""⟩ "X" recGo =
      (true, ⟨dictSet [("X", recGo), ("Other", recPhraseY)] "X" recGo, [], ""⟩) :=
  claim_C7 [] "" (by decide)
    (show dictGet [("X", recGo), ("Other", recPhraseY)] "X" = some recGo from rfl)
    (by decide) (show "go" ∈ effPhrases recGo from by decide) (by decide)
    (by decide) (by decide)

/-- Counterexample to C7 as stated: the `add_command` path does report a
conflict of a command with its own current entry, and so does the
`update_command` path when the description is the empty string. -/
theorem claim_C7_counterexample :
    ((add_command ⟨[("X", recGo)], [], ""⟩ "X" recGo).1 = false ∧
      (add_command ⟨[("X", recGo)], [], ""⟩ "X" recGo).2.lastConflicts =
        [("go", "X")]) ∧
    (update_command ⟨[("", recGo)], [], ""⟩ "" recGo).1 = false := by
  decide

/-- C8 (amended): `add_command` and `update_command` reject, with the
retrievable message `Invalid command data for <description>`, every record
whose `Phrases` field is missing, is not a list, or is an empty list (for
`update_command` the description must exist — a missing description fails
earlier without setting the message).  Individual phrase entries are not
validated, so a list containing only blank strings passes (see the
counterexample). -/
theorem claim_C8 (m : List (String × CommandRecord))
    (cf : List (String × String)) (err : String) (d : String)
    {r : CommandRecord}
    (hbad : r.Phrases = none ∨ (∃ s, r.Phrases = some (.pyStr s)) ∨
      r.Phrases = some (.pyList [])) :
    add_command ⟨m, cf, err⟩ d r =
      (false, ⟨m, [], "Invalid command data for " ++ d⟩) ∧
    (dictHas m d = true →
      update_command ⟨m, cf, err⟩ d r =
        (false, ⟨m, [], "Invalid command data for " ++ d⟩)) := by
  have hv : is_valid_command_data r = false := by
    unfold is_valid_command_data
    rcases hbad with h | ⟨s, h⟩ | h <;> rw [h] <;> simp
  constructor
  · unfold add_command
    simp only [hv, Bool.not_false, if_true]
  · intro hhas
    unfold update_command
    simp only [hhas, Bool.not_true, Bool.false_eq_true, if_false, hv,
      Bool.not_false, if_true]

/-- Witness for C8: a record with no `Phrases` key is rejected by both
operations on a store containing `X`. -/
theorem claim_C8_witness :
    add_command ⟨[("X", recGo)], [], ""⟩ "X"
        ⟨none, some (.pyStr "command"), some (.pyStr "run.exe")⟩ =
      (false, ⟨[("X", recGo)], [], "Invalid command data for " ++ "X"⟩) ∧
    (dictHas [("X", recGo)] "X" = true →
      update_command ⟨[("X", recGo)], [], ""⟩ "X"
          ⟨none, some (.pyStr "command"), some (.pyStr "run.exe")⟩ =
        (false, ⟨[("X", recGo)], [], "Invalid command data for " ++ "X"⟩)) :=
  claim_C8 [("X", recGo)] [] "" "X" (Or.inl rfl)

/-- Counterexample to C8 as stated: a record whose phrase list contains only a
whitespace string passes structural validation, and adding it succeeds. -/
theorem claim_C8_counterexample :
    is_valid_command_data recWhitespace = true ∧
    (add_command ⟨[], [], ""⟩ "W" recWhitespace).1 = true ∧
    (add_command ⟨[], [], ""⟩ "W" recWhitespace).2.commands =
      [("W", recWhitespace)] := by
  decide

theorem getPhraseList_setRecAction (σ : Heap) (r : Nat) (a : String) (x : Nat) :
    (σ.setRecAction r a).getPhraseList x = σ.getPhraseList x := rfl

/-- C9 (amended): the copies returned by `get_command` and `get_all_commands`
are shallow.  For `get_command`, the returned record object is fresh, so
mutating its top-level fields does not change any subsequent read through the
store; but its `Phrases` list is the same object as the store's, and for
`get_all_commands` even the record objects are shared, so nested mutation is
visible through the store (see the counterexample). -/
theorem claim_C9 {σ : Heap} {m : CommandRefs} (hwf : WfRefs σ m)
    {d : String} {r : Nat} {σ' : Heap}
    (hget : heap_get_command σ m d = (some r, σ'))
    (a : String) (d' : String) :
    storePhrases (σ'.setRecAction r a) m d' = storePhrases σ' m d' ∧
    storeAction (σ'.setRecAction r a) m d' = storeAction σ' m d' := by
  unfold heap_get_command at hget
  split at hget
  · injection hget with h1 _
    cases h1
  · split at hget
    · injection hget with h1 _
      cases h1
    · rename_i rv heqr
      injection hget with h1 h2
      have hr : σ.freshRecRef = r := Option.some.inj h1
      subst hr
      subst h2
      have hrne : ∀ ref0 rv0, σ.getRec ref0 = some rv0 → ref0 ≠ σ.freshRecRef :=
        fun ref0 rv0 h0 => getRec_ne_fresh h0
      constructor
      · unfold storePhrases
        cases hd' : dictGet m d' with
        | none => rfl
        | some ref' =>
          rcases hwf (d', ref') (dictGet_mem hd') with ⟨rv', hrv'⟩
          have hne : ref' ≠ σ.freshRecRef := hrne ref' rv' hrv'
          have happ : (Heap.mk (σ.recs ++ [(σ.freshRecRef, rv)])
              σ.phraseLists).getRec ref' = some rv' :=
            getRec_append_of_some hrv' _
          simp only [hd']
          rw [getRec_setRecAction_ne _ _ _ a hne]
          simp only [happ, getPhraseList_setRecAction]
      · unfold storeAction
        cases hd' : dictGet m d' with
        | none => rfl
        | some ref' =>
          rcases hwf (d', ref') (dictGet_mem hd') with ⟨rv', hrv'⟩
          have hne : ref' ≠ σ.freshRecRef := hrne ref' rv' hrv'
          have happ : (Heap.mk (σ.recs ++ [(σ.freshRecRef, rv)])
              σ.phraseLists).getRec ref' = some rv' :=
            getRec_append_of_some hrv' _
          simp only [hd']
          rw [getRec_setRecAction_ne _ _ _ a hne]

/-- Witness for C9: mutating the action field of the record returned by
`get_command` does not change the store's view of command `X`. -/
theorem claim_C9_witness :
    storePhrases (heapExCopy.setRecAction 1 "browser") mapEx "X" =
      storePhrases heapExCopy mapEx "X" ∧
    storeAction (heapExCopy.setRecAction 1 "browser") mapEx "X" =
      storeAction heapExCopy mapEx "X" :=
  claim_C9
    (by
      intro e he
      rcases List.mem_singleton.mp he with rfl
      exact ⟨heapRec, rfl⟩)
    (show heap_get_command heapEx mapEx "X" = (some 1, heapExCopy) from by decide)
    "browser" "X"

/-- Counterexample to C9 as stated: the snapshots are not independent deep
copies.  Appending to the phrase list reached through the `get_all_commands`
snapshot (the same record references) changes what the store subsequently
reports for `X`; and the record returned by `get_command` shares its
`Phrases` list object with the store, so mutating it through the copy is
visible too. -/
theorem claim_C9_counterexample :
    (heap_get_all_commands mapEx = mapEx ∧
      storePhrases heapEx mapEx "X" = some ["go"] ∧
      storePhrases (heapEx.appendPhrase 0 "evil") mapEx "X" =
        some ["go", "evil"]) ∧
    (heap_get_command heapEx mapEx "X" = (some 1, heapExCopy) ∧
      (heapExCopy.getRec 1).map RecObj.phrasesRef = some 0 ∧
      storePhrases (heapExCopy.appendPhrase 0 "evil") mapEx "X" =
        some ["go", "evil"]) := by
  decide

/-- C10 (amended): `add_command` is an upsert.  If description `d` (non-empty)
already maps to a record in a conflict-free store and the new record `r'` is
structurally valid with no phrase that, after trimming and lower-casing,
equals a phrase of any existing command (including `d`'s own current record,
which the add path does not exclude), the call returns success and replaces
`d`'s stored record with `r'` rather than failing because `d` exists.  (When
the store already contains an unrelated conflict, or `d` is the empty string,
the replacement still happens but the call returns the failure reported by
the save-time re-validation; see the counterexample.) -/
theorem claim_C10 {m : List (String × CommandRecord)}
    (cf : List (String × String)) (err : String) {d : String}
    {rOld r' : CommandRecord}
    (hva : validate_all_conflicts m = [])
    (hget : dictGet m d = some rOld) (hd : d ≠ "")
    (hv : is_valid_command_data r' = true)
    (hdisj : ∀ e ∈ m, ∀ q ∈ nbNorms r', q ∉ nbNorms e.2) :
    add_command ⟨m, cf, err⟩ d r' = (true, ⟨dictSet m d r', cf, err⟩) ∧
    dictGet (dictSet m d r') d = some r' := by
  have hfind : find_phrase_conflicts m (effPhrases r') none = [] := by
    rw [find_eq_nil_iff]
    intro e he hskip ep hep hblank q hq heq
    exact hdisj e he q hq (mem_normalizedNonEmpty.mpr ⟨ep, hep, hblank, heq⟩)
  have hsc := (validate_all_eq_nil_iff m).mp hva
  have hva' : validate_all_conflicts (dictSet m d r') = [] := by
    rw [validate_all_eq_nil_iff]
    exact StoreConsistent_dictSet hsc hd (fun e he _ => hdisj e he)
  exact ⟨add_command_success cf err hv hfind hva', dictGet_dictSet_self m d r'⟩

/-- Witness for C10: re-adding `D` with a fresh phrase set succeeds and
replaces the stored record. -/
theorem claim_C10_witness :
    add_command ⟨[("D", recGo)], [], ""⟩ "D" recPhraseZ =
      (true, ⟨dictSet [("D", recGo)] "D" recPhraseZ, [], ""⟩) ∧
    dictGet (dictSet [("D", recGo)] "D" recPhraseZ) "D" = some recPhraseZ :=
  claim_C10 [] "" (by decide)
    (show dictGet [("D", recGo)] "D" = some recGo from rfl)
    (by decide) (by decide) (by decide)

/-- Counterexample to C10 as stated: with an unrelated pre-existing conflict
between `A` and `B`, the upsert of `D` still replaces the record but the call
returns failure; likewise for an empty description, whose stored record
conflicts with itself at save time. -/
theorem claim_C10_counterexample :
    ((add_command ⟨[("A", recPhraseX), ("B", recPhraseX), ("D", recPhraseY)],
        [], ""⟩ "D" recPhraseZ).1 = false ∧
      (add_command ⟨[("A", recPhraseX), ("B", recPhraseX), ("D", recPhraseY)],
        [], ""⟩ "D" recPhraseZ).2.commands =
          [("A", recPhraseX), ("B", recPhraseX), ("D", recPhraseZ)]) ∧
    ((add_command ⟨[("", recGo)], [], ""⟩ "" recPhraseZ).1 = false ∧
      (add_command ⟨[("", recGo)], [], ""⟩ "" recPhraseZ).2.commands =
        [("", recPhraseZ)]) := by
  decide
